import Mathlib

/-!
Verification of the protols Protobuf formatter (pkg/format/alg.go) against its
natural-language specification.  The Go source is shallowly embedded: the
stateful token writer becomes explicit state passing over a `Fmt` record, the
output sink becomes a failure schedule plus an accumulated output, and each
formatter routine becomes a pure Lean function mirroring the Go control flow.
-/

namespace ProtoFmt

/-- Sentinel for `lastWritten` before any output, Go's zero rune. -/
def nulChar : Char := '\x00'

/-- Unicode replacement rune, returned by Go's `utf8.DecodeRuneInString` on an
empty string. -/
def runeError : Char := Char.ofNat 0xFFFD

/-- Summary of the `previousNode` field: the only facts the writer consults
about it are whether it is nil and whether it is a rune node with an opening
brace rune (`isOpenBrace`). -/
inductive PrevNode where
  | runeN (c : Char)
  | otherN
deriving DecidableEq, Repr

/-- Formatter state, embedding the Go `formatter` struct.  The `io.Writer`
sink is modelled by a failure schedule `failAt` (whether the n-th `Write`
call fails) together with the accumulated successfully written `output`;
`err` is the accumulated error list (`errors.Join` joins, so a list). -/
structure Fmt where
  failAt : Nat → Bool
  writeCount : Nat
  output : List Char
  err : List String
  indent : Nat
  lastWritten : Char
  previousNode : Option PrevNode
  pendingSpace : Bool
  inCompactOptions : Bool
  pendingIndent : Int
  inline : Bool

/-- Fresh formatter over a sink with the given failure schedule
(`NewFormatter`). -/
def NewFormatter (sched : Nat → Bool) : Fmt :=
  { failAt := sched
    writeCount := 0
    output := []
    err := []
    indent := 0
    lastWritten := nulChar
    previousNode := none
    pendingSpace := false
    inCompactOptions := false
    pendingIndent := 0
    inline := false }

/-- Message recorded when a sink write fails. -/
def sinkErrMsg : String := "write error"

/-- Message recorded by `Out` on an attempt to unindent at zero. -/
def outErrMsg : String := "internal error: attempted to decrement indentation at zero"

/-- One call of `f.writer.Write`: on failure the error is joined into `err`
and nothing is appended; on success the bytes are appended.  Returns the
Go success flag. -/
def write1 (f : Fmt) (s : List Char) : Fmt × Bool :=
  if f.failAt f.writeCount then
    ({ f with writeCount := f.writeCount + 1, err := f.err ++ [sinkErrMsg] }, false)
  else
    ({ f with writeCount := f.writeCount + 1, output := f.output ++ s }, true)

/-- Characters before which a pending space is suppressed (Go
`nextBlockList`). -/
def nextBlockList (inl : Bool) : List Char :=
  if inl then ['\n', ';', ',', ')', ']', '\x7d', '>'] else ['\n', ';', ',']

/-- Characters after which a pending space is suppressed (Go
`prevBlockList`). -/
def prevBlockList (inl : Bool) : List Char :=
  if inl then ['\x00', ' ', '\t', '\n', '<', '[', '\x7b', '('] else ['\x00', ' ', '\t', '\n']

/-- First rune of a string, Go `utf8.DecodeRuneInString` (replacement rune on
empty input). -/
def firstRune (s : String) : Char := s.data.headD runeError

/-- Last rune of a string, Go `utf8.DecodeLastRuneInString` (replacement rune
on empty input). -/
def lastRune (s : String) : Char := s.data.getLastD runeError

/-- Tail of `formatter.WriteString` after the pending-space resolution: an
empty element writes nothing, otherwise `lastWritten` is updated to the last
rune of the element and the element is written to the sink. -/
def writeRest (f : Fmt) (elem : String) : Fmt :=
  if elem = "" then f
  else (write1 { f with lastWritten := lastRune elem } elem.data).1

/-- Embedding of `formatter.WriteString`.  Resolves a pending space by
consulting `lastWritten` and the first rune of `elem` against the block
lists; on a failed space write it records the error and returns early. -/
def WriteString (f : Fmt) (elem : String) : Fmt :=
  if f.pendingSpace then
    let f1 := { f with pendingSpace := false }
    if (prevBlockList f.inline).contains f.lastWritten = false ∧
       (nextBlockList f.inline).contains (firstRune elem) = false then
      let r := write1 f1 [' ']
      if r.2 = false then r.1
      else writeRest r.1 elem
    else writeRest f1 elem
  else writeRest f elem

/-- Embedding of `formatter.Space`: set the pending-space flag. -/
def Space (f : Fmt) : Fmt := { f with pendingSpace := true }

/-- Embedding of `formatter.In`. -/
def In (f : Fmt) : Fmt := { f with indent := f.indent + 1 }

/-- Embedding of `formatter.Out`: decrementing at zero records a fatal
internal error and leaves the counter unchanged. -/
def Out (f : Fmt) : Fmt :=
  if f.indent = 0 then { f with err := f.err ++ [outErrMsg] }
  else { f with indent := f.indent - 1 }

/-- Two spaces per indentation level (Go `strings.Repeat("  ", indent)`). -/
def indentChars (n : Nat) : List Char := List.replicate (2 * n) ' '

/-- Embedding of `formatter.Indent`: only at the beginning of a line; one
level less when the next node is a closing brace rune. -/
def Indent (f : Fmt) (nextNode : Option PrevNode) : Fmt :=
  if f.lastWritten ≠ '\n' then f
  else
    let ind :=
      match nextNode with
      | some (PrevNode.runeN c) =>
          if 0 < f.indent ∧ (['\x7d', ']', ')', '>'] : List Char).contains c then f.indent - 1
          else f.indent
      | _ => f.indent
    WriteString f (String.mk (indentChars ind))

/-- Go `strings.TrimSpace` over the character list (ASCII whitespace). -/
def trimChars (l : List Char) : List Char :=
  ((l.dropWhile Char.isWhitespace).reverse.dropWhile Char.isWhitespace).reverse

/-- Go `strings.TrimSpace` on strings. -/
def goTrim (s : String) : String := String.mk (trimChars s.data)

/-- Go `strings.Split(s, "\n")` over the character list; always returns at
least one piece. -/
def goSplitAux : List Char → List Char → List (List Char)
  | acc, [] => [acc.reverse]
  | acc, c :: rest =>
      if c = '\n' then acc.reverse :: goSplitAux [] rest
      else goSplitAux (c :: acc) rest

/-- Split a string into its lines at newline characters. -/
def splitLines (l : List Char) : List (List Char) := goSplitAux [] l

/-- Go `strings.HasPrefix(s, pfx)` for a two-character pattern. -/
def startsWith2 (l : List Char) (a b : Char) : Bool :=
  match l with
  | x :: y :: _ => x = a && y = b
  | _ => false

/-- Go `strings.Join(lines, " ")` over character lists. -/
def joinSpace : List (List Char) → List Char
  | [] => []
  | [x] => x
  | x :: y :: rest => x ++ ' ' :: joinSpace (y :: rest)

/-- Number of newline characters in a string (`newlineCount`). -/
def newlineCountStr (s : String) : Nat := s.data.count '\n'

/-- Embedding of `formatter.P`: indentation unless the line trims to empty,
the element, a newline, then the deferred indent adjustment. -/
def P (f : Fmt) (elem : String) : Fmt :=
  let f :=
    if goTrim elem ≠ "" then WriteString (Indent f none) elem else f
  let f := WriteString f "\n"
  let f :=
    if 0 < f.pendingIndent then In f
    else if f.pendingIndent < 0 then Out f
    else f
  { f with pendingIndent := 0 }

/-- Embedding of `formatter.SetPreviousNode`. -/
def SetPreviousNode (f : Fmt) (n : PrevNode) : Fmt := { f with previousNode := some n }

/-- Embedding of `formatter.saveState`: a fresh formatter over the given
secondary sink schedule, copying every state field; the Go struct literal
leaves `err` at its zero value (no errors). -/
def saveState (f : Fmt) (sched : Nat → Bool) : Fmt :=
  { failAt := sched
    writeCount := 0
    output := []
    err := []
    indent := f.indent
    lastWritten := f.lastWritten
    previousNode := f.previousNode
    pendingSpace := f.pendingSpace
    inCompactOptions := f.inCompactOptions
    pendingIndent := f.pendingIndent
    inline := f.inline }

/-- Embedding of `formatter.mergeState`: the secondary buffer (the
secondary formatter's output) is copied to the real sink with `io.Copy`,
whose error is discarded, and every state field except `err` is copied
back from the secondary formatter. -/
def mergeState (f other : Fmt) : Fmt :=
  let f1 :=
    if f.failAt f.writeCount then { f with writeCount := f.writeCount + 1 }
    else { f with writeCount := f.writeCount + 1, output := f.output ++ other.output }
  { f1 with
    indent := other.indent
    lastWritten := other.lastWritten
    previousNode := other.previousNode
    pendingSpace := other.pendingSpace
    inCompactOptions := other.inCompactOptions
    pendingIndent := other.pendingIndent
    inline := other.inline }

/-- Shape of `formatter.Run`: run the file writer body once, then return the
accumulated error, joined exactly once. -/
def RunCore (body : Fmt → Fmt) (f : Fmt) : Fmt × List String :=
  ((body f), (body f).err)

/-- Primitive writer operations; every emission the formatter performs goes
through these. -/
inductive WOp where
  | ws (s : String)
  | pline (s : String)
  | space
  | indentOp (n : Option PrevNode)
  | inOp
  | outOp
  | setPrev (n : PrevNode)

/-- Run a sequence of primitive writer operations. -/
def exec (f : Fmt) : List WOp → Fmt
  | [] => f
  | WOp.ws s :: ops => exec (WriteString f s) ops
  | WOp.pline s :: ops => exec (P f s) ops
  | WOp.space :: ops => exec (Space f) ops
  | WOp.indentOp n :: ops => exec (Indent f n) ops
  | WOp.inOp :: ops => exec (In f) ops
  | WOp.outOp :: ops => exec (Out f) ops
  | WOp.setPrev n :: ops => exec (SetPreviousNode f n) ops

/-- Claim-side description of the runes before which a pending space is
suppressed: newline, semicolon, comma, and when inline a closing rune. -/
def specNextSuppressed (inl : Bool) (c : Char) : Prop :=
  c = '\n' ∨ c = ';' ∨ c = ',' ∨
    (inl = true ∧ (c = ')' ∨ c = ']' ∨ c = '\x7d' ∨ c = '>'))

/-- Claim-side description of the runes after which a pending space is
suppressed: the NUL sentinel, space, tab, newline, and when inline an
opening rune. -/
def specPrevSuppressed (inl : Bool) (c : Char) : Prop :=
  c = nulChar ∨ c = ' ' ∨ c = '\t' ∨ c = '\n' ∨
    (inl = true ∧ (c = '<' ∨ c = '[' ∨ c = '\x7b' ∨ c = '('))

instance (inl : Bool) (c : Char) : Decidable (specNextSuppressed inl c) := by
  unfold specNextSuppressed; infer_instance

instance (inl : Bool) (c : Char) : Decidable (specPrevSuppressed inl c) := by
  unfold specPrevSuppressed; infer_instance

lemma mem_nextBlockList (inl : Bool) (c : Char) :
    c ∈ nextBlockList inl ↔ specNextSuppressed inl c := by
  cases inl <;> simp [nextBlockList, specNextSuppressed]

lemma mem_prevBlockList (inl : Bool) (c : Char) :
    c ∈ prevBlockList inl ↔ specPrevSuppressed inl c := by
  cases inl <;> simp [prevBlockList, specPrevSuppressed, nulChar]

/-- C5.  For any writer state in which a space is pending and any nonempty
element, over a non-failing sink, `WriteString` emits exactly one space
between the previous output and the element unless the element's first rune
is in the claim's next-rune suppression set or the last written rune is in
the claim's previous-rune suppression set, in which case no space is
emitted. -/
theorem c5_pending_space_resolution (f : Fmt) (s : String)
    (hp : f.pendingSpace = true) (hs : s ≠ "") (hok : ∀ n, f.failAt n = false) :
    (WriteString f s).output =
      f.output ++
        (if specNextSuppressed f.inline (firstRune s) ∨
            specPrevSuppressed f.inline f.lastWritten
         then [] else [' ']) ++ s.data := by
  unfold WriteString writeRest write1
  by_cases hprev : specPrevSuppressed f.inline f.lastWritten
  · have h1 : f.lastWritten ∈ prevBlockList f.inline := (mem_prevBlockList _ _).mpr hprev
    simp [hp, h1, hs, hprev, hok]
  · have h1 : f.lastWritten ∉ prevBlockList f.inline := fun h =>
      hprev ((mem_prevBlockList _ _).mp h)
    by_cases hnext : specNextSuppressed f.inline (firstRune s)
    · have h2 : firstRune s ∈ nextBlockList f.inline := (mem_nextBlockList _ _).mpr hnext
      simp [hp, h1, h2, hs, hnext, hok]
    · have h2 : firstRune s ∉ nextBlockList f.inline := fun h =>
        hnext ((mem_nextBlockList _ _).mp h)
      simp [hp, h1, h2, hs, hnext, hprev, hok, List.append_assoc]

/-- Concrete state used to witness C5. -/
def c5State : Fmt :=
  { NewFormatter (fun _ => false) with
      pendingSpace := true, lastWritten := 'a', output := ['a'] }

/-- Witness for C5 at a concrete state: a space is emitted between two
identifier characters. -/
theorem c5_pending_space_resolution_witness :
    (WriteString c5State "b").output = ['a', ' ', 'b'] := by
  have h := c5_pending_space_resolution c5State "b" rfl (by decide) (fun n => rfl)
  simpa [c5State, NewFormatter, specNextSuppressed, specPrevSuppressed, firstRune,
    nulChar] using h

lemma write1_err_extends (f : Fmt) (s : List Char) :
    ∃ t, (write1 f s).1.err = f.err ++ t := by
  unfold write1
  by_cases h : f.failAt f.writeCount = true
  · exact ⟨[sinkErrMsg], by simp [h]⟩
  · exact ⟨[], by simp [h]⟩

lemma writeRest_err_extends (f : Fmt) (s : String) :
    ∃ t, (writeRest f s).err = f.err ++ t := by
  unfold writeRest
  by_cases h : s = ""
  · exact ⟨[], by simp [h]⟩
  · simpa [h] using write1_err_extends { f with lastWritten := lastRune s } s.data

lemma writeRest_err_extends_gen (f g : Fmt) (s : String) (u : List String)
    (hg : g.err = f.err ++ u) : ∃ t, (writeRest g s).err = f.err ++ t := by
  obtain ⟨t, ht⟩ := writeRest_err_extends g s
  exact ⟨u ++ t, by rw [ht, hg, List.append_assoc]⟩

lemma WriteString_err_extends (f : Fmt) (s : String) :
    ∃ t, (WriteString f s).err = f.err ++ t := by
  unfold WriteString
  by_cases hp : f.pendingSpace = true
  · by_cases hc : (prevBlockList f.inline).contains f.lastWritten = false ∧
        (nextBlockList f.inline).contains (firstRune s) = false
    · by_cases hb : f.failAt f.writeCount = true
      · simp only [hp, if_true, ite_true]
        rw [if_pos hc]
        simp only [write1, hb, ite_true]
        exact ⟨[sinkErrMsg], rfl⟩
      · simp only [hp, if_true, ite_true]
        rw [if_pos hc]
        simp only [write1]
        rw [if_neg hb]
        simp only []
        rw [if_neg (by simp)]
        exact writeRest_err_extends_gen f _ s [] (by simp)
    · simp only [hp, if_true, ite_true]
      rw [if_neg hc]
      exact writeRest_err_extends_gen f _ s [] (by simp)
  · rw [if_neg hp]
    exact writeRest_err_extends_gen f _ s [] (by simp)

lemma Out_err_extends (f : Fmt) : ∃ t, (Out f).err = f.err ++ t := by
  unfold Out
  by_cases h : f.indent = 0
  · rw [if_pos h]; exact ⟨[outErrMsg], rfl⟩
  · rw [if_neg h]; exact ⟨[], by simp⟩

lemma Indent_err_extends (f : Fmt) (n : Option PrevNode) :
    ∃ t, (Indent f n).err = f.err ++ t := by
  unfold Indent
  by_cases h : f.lastWritten ≠ '\n'
  · rw [if_pos h]; exact ⟨[], by simp⟩
  · rw [if_neg h]
    exact WriteString_err_extends f _

lemma P_err_extends (f : Fmt) (s : String) : ∃ t, (P f s).err = f.err ++ t := by
  unfold P
  obtain ⟨t1, ht1⟩ :
      ∃ t, (if goTrim s ≠ "" then WriteString (Indent f none) s else f).err = f.err ++ t := by
    by_cases h : goTrim s ≠ ""
    · rw [if_pos h]
      obtain ⟨a, ha⟩ := Indent_err_extends f none
      obtain ⟨b, hb⟩ := WriteString_err_extends (Indent f none) s
      exact ⟨a ++ b, by rw [hb, ha, List.append_assoc]⟩
    · rw [if_neg h]; exact ⟨[], by simp⟩
  set g1 := (if goTrim s ≠ "" then WriteString (Indent f none) s else f) with hg1
  obtain ⟨t2, ht2⟩ := WriteString_err_extends g1 "\n"
  set g2 := WriteString g1 "\n" with hg2
  obtain ⟨t3, ht3⟩ :
      ∃ t, (if 0 < g2.pendingIndent then In g2
            else if g2.pendingIndent < 0 then Out g2 else g2).err = g2.err ++ t := by
    by_cases h1 : 0 < g2.pendingIndent
    · rw [if_pos h1]; exact ⟨[], by simp [In]⟩
    · rw [if_neg h1]
      by_cases h2 : g2.pendingIndent < 0
      · rw [if_pos h2]; exact Out_err_extends g2
      · rw [if_neg h2]; exact ⟨[], by simp⟩
  refine ⟨t1 ++ t2 ++ t3, ?_⟩
  show (if 0 < g2.pendingIndent then In g2
        else if g2.pendingIndent < 0 then Out g2 else g2).err = f.err ++ (t1 ++ t2 ++ t3)
  rw [ht3, ht2, ht1, List.append_assoc, List.append_assoc]
  simp [List.append_assoc]

lemma exec_err_extends (ops : List WOp) : ∀ f : Fmt, ∃ t, (exec f ops).err = f.err ++ t := by
  induction ops with
  | nil => exact fun f => ⟨[], by simp [exec]⟩
  | cons op ops ih =>
      intro f
      cases op with
      | ws s =>
          obtain ⟨t1, ht1⟩ := WriteString_err_extends f s
          obtain ⟨t2, ht2⟩ := ih (WriteString f s)
          refine ⟨t1 ++ t2, ?_⟩
          show (exec (WriteString f s) ops).err = f.err ++ (t1 ++ t2)
          rw [ht2, ht1, List.append_assoc]
      | pline s =>
          obtain ⟨t1, ht1⟩ := P_err_extends f s
          obtain ⟨t2, ht2⟩ := ih (P f s)
          refine ⟨t1 ++ t2, ?_⟩
          show (exec (P f s) ops).err = f.err ++ (t1 ++ t2)
          rw [ht2, ht1, List.append_assoc]
      | space => exact ih (Space f)
      | indentOp n =>
          obtain ⟨t1, ht1⟩ := Indent_err_extends f n
          obtain ⟨t2, ht2⟩ := ih (Indent f n)
          refine ⟨t1 ++ t2, ?_⟩
          show (exec (Indent f n) ops).err = f.err ++ (t1 ++ t2)
          rw [ht2, ht1, List.append_assoc]
      | inOp => exact ih (In f)
      | outOp =>
          obtain ⟨t1, ht1⟩ := Out_err_extends f
          obtain ⟨t2, ht2⟩ := ih (Out f)
          refine ⟨t1 ++ t2, ?_⟩
          show (exec (Out f) ops).err = f.err ++ (t1 ++ t2)
          rw [ht2, ht1, List.append_assoc]
      | setPrev n => exact ih (SetPreviousNode f n)

/-- C8.  Calling `Out` at indentation zero records the fatal internal error,
leaves the indentation counter at zero, and the error survives any further
formatting built from the writer primitives and is surfaced by the
`Run`-shaped final error return; at positive indentation `Out` decrements
and records no error. -/
theorem c8_out_at_zero (f : Fmt) :
    (f.indent = 0 →
      (Out f).err = f.err ++ [outErrMsg] ∧ (Out f).indent = 0 ∧
      ∀ ops : List WOp, outErrMsg ∈ (RunCore (fun g => exec g ops) (Out f)).2) ∧
    (0 < f.indent → (Out f).indent = f.indent - 1 ∧ (Out f).err = f.err) := by
  constructor
  · intro h0
    refine ⟨by simp [Out, h0], by simp [Out, h0], ?_⟩
    intro ops
    obtain ⟨t, ht⟩ := exec_err_extends ops (Out f)
    have hmem : outErrMsg ∈ (Out f).err := by simp [Out, h0]
    simp only [RunCore, ht]
    exact List.mem_append_left _ hmem
  · intro hpos
    have h0 : ¬ f.indent = 0 := by omega
    exact ⟨by simp [Out, h0], by simp [Out, h0]⟩

/-- Witness for C8: at indentation zero the error is recorded and surfaced;
after one `In`, `Out` decrements back to zero with no error. -/
theorem c8_out_at_zero_witness :
    (Out (NewFormatter (fun _ => false))).err = [outErrMsg] ∧
    outErrMsg ∈ (RunCore (fun g => exec g [WOp.ws "x"]) (Out (NewFormatter (fun _ => false)))).2 ∧
    (Out (In (NewFormatter (fun _ => false)))).indent = 0 ∧
    (Out (In (NewFormatter (fun _ => false)))).err = [] := by
  have h1 := (c8_out_at_zero (NewFormatter (fun _ => false))).1 rfl
  have h2 := (c8_out_at_zero (In (NewFormatter (fun _ => false)))).2 (by simp [In, NewFormatter])
  refine ⟨by simpa [NewFormatter] using h1.1, ?_, by simpa [In, NewFormatter] using h2.1,
    by simpa [In, NewFormatter] using h2.2⟩
  exact h1.2.2 [WOp.ws "x"]

/-- Primary formatter used in the C7 scenario, over a non-failing sink. -/
def c7Primary : Fmt := NewFormatter (fun _ => false)

/-- Secondary formatter of the C7 scenario: state is saved with emission
redirected to a fresh (never-failing) buffer, and an internal invariant
violation (`Out` at indentation zero) occurs while redirected. -/
def c7Secondary : Fmt := Out (saveState c7Primary (fun _ => false))

/-- Counterexample to C7: an error recorded while emission was redirected to
a secondary buffer is not surfaced — `mergeState` drops the secondary
formatter's accumulated error, so the `Run`-shaped error return is empty. -/
theorem c7_counterexample :
    c7Secondary.err = [outErrMsg] ∧
    (RunCore id (mergeState c7Primary c7Secondary)).2 = [] := by
  constructor
  · rfl
  · rfl

/-- C7 amended.  Errors recorded on the primary formatter are accumulated
without retry and returned, joined, exactly once by the `Run`-shaped final
return; but `mergeState` copies back every state field of the secondary
formatter except its error field, so errors accumulated while emission was
redirected under the save/merge pattern are discarded rather than
surfaced (and the error of copying the secondary buffer is ignored). -/
theorem c7_error_accumulation (f other : Fmt) (s : String)
    (hfail : f.failAt f.writeCount = true) :
    ((mergeState f other).err = f.err ∧
      (mergeState f other).indent = other.indent ∧
      (mergeState f other).lastWritten = other.lastWritten ∧
      (mergeState f other).pendingSpace = other.pendingSpace ∧
      (mergeState f other).pendingIndent = other.pendingIndent ∧
      (mergeState f other).inline = other.inline) ∧
    (∀ body : Fmt → Fmt, (RunCore body f).2 = (body f).err) ∧
    (f.pendingSpace = false → s ≠ "" →
      (WriteString f s).err = f.err ++ [sinkErrMsg] ∧
      (WriteString f s).output = f.output ∧
      (WriteString f s).writeCount = f.writeCount + 1) := by
  refine ⟨?_, fun body => rfl, ?_⟩
  · unfold mergeState
    by_cases h : f.failAt f.writeCount = true <;> simp [h]
  · intro hp hs
    unfold WriteString writeRest write1
    simp [hp, hs, hfail]

/-- Failure schedule in which every sink write fails. -/
def alwaysFail : Nat → Bool := fun _ => true

/-- Witness for C7's amended claim at concrete states: a failing sink write
is recorded once, and merging back a secondary state drops its error. -/
theorem c7_error_accumulation_witness :
    (mergeState (NewFormatter alwaysFail) c7Secondary).err = [] ∧
    (WriteString (NewFormatter alwaysFail) "x").err = [sinkErrMsg] ∧
    (WriteString (NewFormatter alwaysFail) "x").output = [] := by
  have h := c7_error_accumulation (NewFormatter alwaysFail) c7Secondary "x" rfl
  refine ⟨?_, ?_, ?_⟩
  · simpa [NewFormatter] using h.1.1
  · simpa [NewFormatter] using (h.2.2 rfl (by decide)).1
  · simpa [NewFormatter] using (h.2.2 rfl (by decide)).2.1

/-- Import declaration as consulted by the header orderer: its name string
(`Name.AsString()`), the presence of the `public`/`weak` modifier, and
whether the node or any of its component tokens carries a comment
(`nodeHasComment` of the node itself, keyword, name, semicolon, public,
weak; `nodeHasComment` of an absent component is false). -/
structure ImportNode where
  name : String
  isPublic : Bool
  isWeak : Bool
  selfHasComment : Bool
  keywordHasComment : Bool
  nameHasComment : Bool
  semicolonHasComment : Bool
  publicHasComment : Bool
  weakHasComment : Bool
deriving DecidableEq, Repr

/-- Embedding of `importHasComment`: the import node itself or any of its
component tokens carries a leading or trailing comment. -/
def importHasComment (im : ImportNode) : Bool :=
  im.selfHasComment || im.keywordHasComment || im.nameHasComment ||
    im.semicolonHasComment || im.publicHasComment || im.weakHasComment

/-- Embedding of `importSortOrder`: `import public` is 2, `import weak` is 1,
plain `import` is 3. -/
def importSortOrder (im : ImportNode) : Nat :=
  if im.isPublic then 2 else if im.isWeak then 1 else 3

/-- Byte-wise string comparison, Go's `<` on strings (UTF-8 byte order
coincides with code-point order). -/
def goStrLt : List Char → List Char → Bool
  | [], [] => false
  | [], _ :: _ => true
  | _ :: _, [] => false
  | x :: xs, y :: ys => if x < y then true else if y < x then false else goStrLt xs ys

/-- Embedding of the `sort.Slice` comparator in `writeFileHeader`
(alg.go:337-359): name ascending, then higher `importSortOrder` first, then
the comparator puts `j` first when `j` has no comment. -/
def importLess (i j : ImportNode) : Bool :=
  if goStrLt i.name.data j.name.data then true
  else if goStrLt j.name.data i.name.data then false
  else if importSortOrder i > importSortOrder j then true
  else if importSortOrder i < importSortOrder j then false
  else !(importHasComment j)

/-- Plain `import "a.proto";` without comments. -/
def c2plain : ImportNode :=
  { name := "a.proto", isPublic := false, isWeak := false, selfHasComment := false,
    keywordHasComment := false, nameHasComment := false, semicolonHasComment := false,
    publicHasComment := false, weakHasComment := false }

/-- Commented `import public "a.proto";`. -/
def c2pub : ImportNode :=
  { name := "a.proto", isPublic := true, isWeak := false, selfHasComment := true,
    keywordHasComment := false, nameHasComment := false, semicolonHasComment := false,
    publicHasComment := false, weakHasComment := false }

/-- C2 (code bug evaluation).  For two imports with the equal name
"a.proto", the comparator orders the plain import strictly before the
public one — `importSortOrder` maps plain to 3 and public to 2 and the
comparator puts the higher ordinal first — contradicting the claimed
public-before-plain order (and the comparator's own source comment). -/
theorem c2_import_comparator_eval :
    importLess c2plain c2pub = true ∧ importLess c2pub c2plain = false ∧
    importSortOrder c2pub = 2 ∧ importSortOrder c2plain = 3 ∧
    c2plain.name = c2pub.name := by
  decide

/-- Embedding of the import dedup loop in `writeFileHeader`
(alg.go:360-373): after the first import, an import is skipped when its
name equals the name of the previous import in the sorted slice and it
carries no comment.  `prev` is the previous slice element. -/
def nodupKeepAux : ImportNode → List ImportNode → List ImportNode
  | _, [] => []
  | prev, y :: rest =>
      if y.name = prev.name ∧ importHasComment y = false then nodupKeepAux y rest
      else y :: nodupKeepAux y rest

/-- The imports actually emitted by the dedup loop, in order. -/
def emittedImports : List ImportNode → List ImportNode
  | [] => []
  | x :: rest => x :: nodupKeepAux x rest

/-- Claim-side suppression rule: an import is suppressed when its name
equals the name of the previously emitted import and it carries no
comment.  `lastEmitted` is the most recently emitted import. -/
def specEmitAux : ImportNode → List ImportNode → List ImportNode
  | _, [] => []
  | lastEmitted, y :: rest =>
      if y.name = lastEmitted.name ∧ importHasComment y = false then specEmitAux lastEmitted rest
      else y :: specEmitAux y rest

/-- Claim-side emitted imports. -/
def specEmitted : List ImportNode → List ImportNode
  | [] => []
  | x :: rest => x :: specEmitAux x rest

lemma nodupKeepAux_eq_specEmitAux (l : List ImportNode) :
    ∀ prev last : ImportNode, prev.name = last.name →
      nodupKeepAux prev l = specEmitAux last l := by
  induction l with
  | nil => intro prev last h; rfl
  | cons y rest ih =>
      intro prev last h
      unfold nodupKeepAux specEmitAux
      by_cases hy : y.name = prev.name ∧ importHasComment y = false
      · rw [if_pos hy, if_pos ⟨hy.1.trans h, hy.2⟩]
        exact ih y last (hy.1.trans h)
      · have hy2 : ¬(y.name = last.name ∧ importHasComment y = false) := by
          intro hcon
          exact hy ⟨hcon.1.trans h.symm, hcon.2⟩
        rw [if_neg hy, if_neg hy2]
        rw [ih y y rfl]

lemma importLess_tie (x y : ImportNode) (hn : x.name = y.name)
    (ho : importSortOrder x = importSortOrder y) :
    importLess y x = !(importHasComment x) := by
  unfold importLess
  have hg : ∀ c : List Char, goStrLt c c = false := by
    intro c
    induction c with
    | nil => rfl
    | cons a t ih => simp [goStrLt, ih]
  have h1 : goStrLt y.name.data x.name.data = false := by rw [hn]; exact hg _
  have h2 : goStrLt x.name.data y.name.data = false := by rw [hn]; exact hg _
  have h3 : ¬ importSortOrder y > importSortOrder x := by rw [ho]; exact lt_irrefl _
  have h4 : ¬ importSortOrder y < importSortOrder x := by rw [ho]; exact lt_irrefl _
  rw [hn, hg, if_neg (by simp), if_neg h3, if_neg h4]
  simp

/-- Concrete sorted list refuting C3 as stated: a plain uncommented import
and a commented public import of the same name. -/
def c3plain : ImportNode := c2plain

/-- Commented public import of the same name, for the C3 counterexample. -/
def c3pub : ImportNode := c2pub

/-- Counterexample to C3: the list `[plain "a.proto" (no comment),
public "a.proto" (commented)]` is sorted with respect to the comparator
(visibility dominates the comment tie-break), both imports are emitted, and
the non-commented one is emitted strictly before the commented one of the
same name. -/
theorem c3_counterexample :
    List.Pairwise (fun x y => importLess y x = false) [c3plain, c3pub] ∧
    emittedImports [c3plain, c3pub] = [c3plain, c3pub] ∧
    c3plain.name = c3pub.name ∧
    importHasComment c3plain = false ∧ importHasComment c3pub = true := by
  decide

/-- C3 amended.  In any list sorted with respect to the import comparator:
(a) among imports with equal name and equal visibility ordinal, a
non-commented import never strictly precedes a commented one (so within
such ties commented imports are emitted first); and (b) the dedup loop's
suppression — skip an import whose name equals the previous slice
element's name and which has no comment — coincides exactly with the
claim's rule of comparing against the previously emitted import. -/
theorem c3_sorted_dedup (l : List ImportNode)
    (hs : List.Pairwise (fun x y => importLess y x = false) l) :
    List.Pairwise (fun x y => x.name = y.name →
      importSortOrder x = importSortOrder y → importHasComment y = true →
      importHasComment x = true) l ∧
    emittedImports l = specEmitted l := by
  constructor
  · refine hs.imp ?_
    intro x y h hn ho hcy
    have := importLess_tie x y hn ho
    rw [h] at this
    cases hx : importHasComment x
    · rw [hx] at this; simp at this
    · rfl
  · cases l with
    | nil => rfl
    | cons x rest =>
        show x :: nodupKeepAux x rest = x :: specEmitAux x rest
        rw [nodupKeepAux_eq_specEmitAux rest x x rfl]

/-- Commented plain `import "a.proto";`, used by the C3 witness. -/
def c3plainC : ImportNode := { c2plain with selfHasComment := true }

/-- Witness for C3's amended claim: a commented and a non-commented
plain import of equal name, in comparator-sorted order; the
non-commented duplicate is suppressed. -/
theorem c3_sorted_dedup_witness :
    emittedImports [c3plainC, c3plain] = specEmitted [c3plainC, c3plain] ∧
    emittedImports [c3plainC, c3plain] = [c3plainC] := by
  have h := c3_sorted_dedup [c3plainC, c3plain] (by decide)
  exact ⟨h.2, by decide⟩

/-- Per-node positional information consulted by the expansion predicates:
the node's leading whitespace and the lengths of its leading and trailing
comment sequences (`NodeInfo(node)`). -/
structure NodeMeta where
  leadingWhitespace : String
  leadingComments : Nat
  trailingComments : Nat
deriving DecidableEq, Repr

/-- Embedding of `messageLiteralShouldBeExpanded` (alg.go:721-739): false on
no elements, otherwise true iff the first element's leading whitespace
contains a newline.  The node is abstracted by the metas of its elements. -/
def messageLiteralShouldBeExpanded : List NodeMeta → Bool
  | [] => false
  | e :: _ => e.leadingWhitespace.data.contains '\n'

/-- Embedding of `arrayLiteralShouldBeExpanded` (alg.go:741-752). -/
def arrayLiteralShouldBeExpanded : List NodeMeta → Bool
  | [] => false
  | e :: _ => e.leadingWhitespace.data.contains '\n'

/-- Embedding of the loop body of `hasInteriorComments` (alg.go:1443-1456);
the flag records whether the current node is the first one. -/
def hasInteriorCommentsAux : Bool → List NodeMeta → Bool
  | _, [] => false
  | isFirst, n :: rest =>
      if isFirst = false ∧ 0 < n.leadingComments then true
      else if rest ≠ [] ∧ 0 < n.trailingComments then true
      else hasInteriorCommentsAux false rest

/-- Embedding of `hasInteriorComments`: leading comments on a non-first
node or trailing comments on a non-last node. -/
def hasInteriorComments (ns : List NodeMeta) : Bool := hasInteriorCommentsAux true ns

/-- Embedding of `compactOptionsShouldBeExpanded` (alg.go:1324-1356): false
on no options, true on a newline before the first option or on interior
comments among the options. -/
def compactOptionsShouldBeExpanded (opts : List NodeMeta) : Bool :=
  match opts with
  | [] => false
  | o :: _ =>
      if o.leadingWhitespace.data.contains '\n' then true
      else hasInteriorComments opts

/-- The branch condition of `writeCompactOptions` (alg.go:1371): the
expanded rendering is taken unless the node should not be expanded and has
no interior comments. -/
def compactOptionsTakesExpanded (opts : List NodeMeta) : Bool :=
  !(!compactOptionsShouldBeExpanded opts && !hasInteriorComments opts)

/-- Claim-side reading of interior comments between children: a leading
comment on a non-first child or a trailing comment on a non-last child. -/
def specInteriorComments (ns : List NodeMeta) : Prop :=
  ∃ pre x suf, ns = pre ++ x :: suf ∧
    ((pre ≠ [] ∧ 0 < x.leadingComments) ∨ (suf ≠ [] ∧ 0 < x.trailingComments))

/-- Claim-side reading of the newline trigger: the leading whitespace of
the first element contains a newline. -/
def specNewlineFirst (ns : List NodeMeta) : Prop :=
  ∃ e, ns.head? = some e ∧ '\n' ∈ e.leadingWhitespace.data

lemma hasInteriorCommentsAux_iff (ns : List NodeMeta) :
    ∀ first : Bool, hasInteriorCommentsAux first ns = true ↔
      ∃ pre x suf, ns = pre ++ x :: suf ∧
        (((pre ≠ [] ∨ first = false) ∧ 0 < x.leadingComments) ∨
         (suf ≠ [] ∧ 0 < x.trailingComments)) := by
  induction ns with
  | nil =>
      intro first
      unfold hasInteriorCommentsAux
      simp
  | cons n rest ih =>
      intro first
      unfold hasInteriorCommentsAux
      by_cases c1 : first = false ∧ 0 < n.leadingComments
      · rw [if_pos c1]
        simp only [true_iff]
        exact ⟨[], n, rest, rfl, Or.inl ⟨Or.inr c1.1, c1.2⟩⟩
      · rw [if_neg c1]
        by_cases c2 : rest ≠ [] ∧ 0 < n.trailingComments
        · rw [if_pos c2]
          simp only [true_iff]
          exact ⟨[], n, rest, rfl, Or.inr c2⟩
        · rw [if_neg c2]
          rw [ih false]
          constructor
          · rintro ⟨pre, x, suf, hdec, hcond⟩
            refine ⟨n :: pre, x, suf, by simp [hdec], ?_⟩
            rcases hcond with ⟨_, hl⟩ | hr
            · exact Or.inl ⟨Or.inl (by simp), hl⟩
            · exact Or.inr hr
          · rintro ⟨pre, x, suf, hdec, hcond⟩
            cases pre with
            | nil =>
                simp only [List.nil_append, List.cons.injEq] at hdec
                exfalso
                rcases hcond with ⟨hp, hl⟩ | ⟨hsuf, htr⟩
                · rcases hp with hp | hp
                  · exact hp rfl
                  · exact c1 ⟨hp, hdec.1 ▸ hl⟩
                · exact c2 ⟨by rw [hdec.2]; exact hsuf, hdec.1 ▸ htr⟩
            | cons p ps =>
                simp only [List.cons_append, List.cons.injEq] at hdec
                refine ⟨ps, x, suf, hdec.2, ?_⟩
                rcases hcond with ⟨_, hl⟩ | hr
                · exact Or.inl ⟨Or.inr rfl, hl⟩
                · exact Or.inr hr

lemma hasInteriorComments_iff (ns : List NodeMeta) :
    hasInteriorComments ns = true ↔ specInteriorComments ns := by
  unfold hasInteriorComments specInteriorComments
  rw [hasInteriorCommentsAux_iff ns true]
  constructor
  · rintro ⟨pre, x, suf, hdec, hcond⟩
    refine ⟨pre, x, suf, hdec, ?_⟩
    rcases hcond with ⟨hp | hp, hl⟩ | hr
    · exact Or.inl ⟨hp, hl⟩
    · cases hp
    · exact Or.inr hr
  · rintro ⟨pre, x, suf, hdec, hcond⟩
    refine ⟨pre, x, suf, hdec, ?_⟩
    rcases hcond with ⟨hp, hl⟩ | hr
    · exact Or.inl ⟨Or.inl hp, hl⟩
    · exact Or.inr hr

/-- Elements of the C1 counterexample message literal: two elements on one
line, the second carrying a leading comment. -/
def c1elems : List NodeMeta :=
  [{ leadingWhitespace := " ", leadingComments := 0, trailingComments := 0 },
   { leadingWhitespace := " ", leadingComments := 1, trailingComments := 0 }]

/-- Counterexample to C1: a message literal with two elements, no newline
before the first element, and an interior comment (a leading comment on the
second element) is nevertheless not expanded — the message-literal predicate
ignores interior comments. -/
theorem c1_counterexample :
    messageLiteralShouldBeExpanded c1elems = false ∧
    specInteriorComments c1elems ∧ c1elems ≠ [] := by
  refine ⟨by decide, ?_, by decide⟩
  exact ⟨[{ leadingWhitespace := " ", leadingComments := 0, trailingComments := 0 }],
    { leadingWhitespace := " ", leadingComments := 1, trailingComments := 0 }, [],
    rfl, Or.inl ⟨by simp, by decide⟩⟩

/-- C1 amended.  A compact-options node takes the expanded rendering iff it
has at least one element and either the first element's leading whitespace
contains a newline or there are interior comments between its children;
array literals and message literals are expanded iff they have at least one
element and the first element's leading whitespace contains a newline —
interior comments play no role for them; a composite with no elements is
never expanded. -/
theorem c1_expansion_decisions (ns : List NodeMeta) :
    (compactOptionsTakesExpanded ns = true ↔
      ns ≠ [] ∧ (specNewlineFirst ns ∨ specInteriorComments ns)) ∧
    (messageLiteralShouldBeExpanded ns = true ↔ ns ≠ [] ∧ specNewlineFirst ns) ∧
    (arrayLiteralShouldBeExpanded ns = true ↔ ns ≠ [] ∧ specNewlineFirst ns) := by
  refine ⟨?_, ?_, ?_⟩
  · cases ns with
    | nil =>
        simp [compactOptionsTakesExpanded, compactOptionsShouldBeExpanded,
          hasInteriorComments, hasInteriorCommentsAux]
    | cons e rest =>
        dsimp only [compactOptionsTakesExpanded, compactOptionsShouldBeExpanded]
        by_cases hnl : e.leadingWhitespace.data.contains '\n' = true
        · rw [if_pos hnl]
          simp only [Bool.not_true, Bool.false_and, Bool.not_false, true_iff]
          refine ⟨by simp, Or.inl ⟨e, rfl, ?_⟩⟩
          simpa [List.contains, List.elem_iff] using hnl
        · rw [if_neg hnl]
          have hnl2 : ¬ specNewlineFirst (e :: rest) := by
            rintro ⟨x, hx, hmem⟩
            simp only [List.head?_cons, Option.some.injEq] at hx
            apply hnl
            rw [hx]
            simpa [List.contains, List.elem_iff] using hmem
          constructor
          · intro h
            have hh : hasInteriorComments (e :: rest) = true := by
              cases hcase : hasInteriorComments (e :: rest) with
              | true => rfl
              | false => rw [hcase] at h; simp at h
            exact ⟨by simp, Or.inr ((hasInteriorComments_iff _).mp hh)⟩
          · rintro ⟨-, hspec | hspec⟩
            · exact absurd hspec hnl2
            · have := (hasInteriorComments_iff (e :: rest)).mpr hspec
              simp [this]
  · cases ns with
    | nil => simp [messageLiteralShouldBeExpanded]
    | cons e rest =>
        unfold messageLiteralShouldBeExpanded
        simp only [ne_eq, List.cons_ne_nil, not_false_iff, true_and]
        constructor
        · intro h
          exact ⟨e, rfl, by simpa [List.contains, List.elem_iff] using h⟩
        · rintro ⟨x, hx, hmem⟩
          simp only [List.head?_cons, Option.some.injEq] at hx
          rw [hx]
          simpa [List.contains, List.elem_iff] using hmem
  · cases ns with
    | nil => simp [arrayLiteralShouldBeExpanded]
    | cons e rest =>
        unfold arrayLiteralShouldBeExpanded
        simp only [ne_eq, List.cons_ne_nil, not_false_iff, true_and]
        constructor
        · intro h
          exact ⟨e, rfl, by simpa [List.contains, List.elem_iff] using h⟩
        · rintro ⟨x, hx, hmem⟩
          simp only [List.head?_cons, Option.some.injEq] at hx
          rw [hx]
          simpa [List.contains, List.elem_iff] using hmem

/-- A segmented field row as consumed by `splitSegmentedFields`; only the
byte lengths of the type name and field name matter to the algorithm
(Go `len` on strings counts bytes). -/
structure segmentedField where
  typeName : String
  fieldName : String
deriving DecidableEq, Repr

/-- Row size: `len(f.typeName) + len(f.fieldName)`. -/
def fieldSize (f : segmentedField) : Nat :=
  f.typeName.utf8ByteSize + f.fieldName.utf8ByteSize

/-- Exact-arithmetic embedding of the Go ratio test with `r = 2.5`:
`r*ratio <= 1 || r <= ratio` where `ratio = size / exp(lnsum/count)` and
`exp(lnsum/count)` is the geometric mean of the `count` accumulated sizes
with product `prod`.  Raising both sides to the `count`-th power turns the
real comparison into the integer comparisons below (`2.5 = 5/2`). -/
def ratioSplitCond (size count prod : Nat) : Bool :=
  decide (5 ^ count * size ^ count ≤ 2 ^ count * prod) ||
  decide (5 ^ count * prod ≤ 2 ^ count * size ^ count)

/-- Embedding of the loop of `splitSegmentedFields` (alg.go:17-45).  `acc`
is the current group in reverse order (`fields[lower:i]`), `prevSize` the
previous row's size, `count` the number and `prod` the product of the
positive sizes accumulated in the current group. -/
def splitGo : List segmentedField → List segmentedField → Nat → Nat → Nat →
    List (List segmentedField)
  | [], acc, _, _, _ => [acc.reverse]
  | fld :: rest, acc, prevSize, count, prod =>
      let size := fieldSize fld
      if 0 < size ∧ 0 < prevSize ∧ 0 < count ∧ (40 < prevSize ∨ 40 < size) ∧
          ratioSplitCond size count prod = true then
        acc.reverse :: splitGo rest [fld] size 1 size
      else
        splitGo rest (fld :: acc) size (if 0 < size then count + 1 else count)
          (if 0 < size then prod * size else prod)

/-- Embedding of `splitSegmentedFields`: run the loop from an empty group. -/
def splitSegmentedFields (fields : List segmentedField) : List (List segmentedField) :=
  splitGo fields [] 0 0 1

/-- The sizes of the non-empty rows of a group (the rows whose sizes enter
the running geometric mean). -/
def groupSizes (g : List segmentedField) : List Nat :=
  (g.map fieldSize).filter (fun s => decide (0 < s))

/-- Claim-side ratio trigger, in exact arithmetic: the ratio of the next
row's size to the geometric mean of the given sizes is at most `1/2.5` or
at least `2.5`. -/
def specRatioCond (size : Nat) (sizes : List Nat) : Prop :=
  5 ^ sizes.length * size ^ sizes.length ≤ 2 ^ sizes.length * sizes.prod ∨
  5 ^ sizes.length * sizes.prod ≤ 2 ^ sizes.length * size ^ sizes.length

instance (size : Nat) (sizes : List Nat) : Decidable (specRatioCond size sizes) := by
  unfold specRatioCond; infer_instance

/-- Size of the last row of a group, zero for an empty group. -/
def lastRowSize (g : List segmentedField) : Nat :=
  match g.getLast? with
  | some a => fieldSize a
  | none => 0

/-- Claim-side splitter: walking the rows in order with the current group,
a sub-group split is forced before the next row exactly when the next row
and the group's last row are both non-empty, either side exceeds the
small-row threshold 40, and the ratio of the next row's size to the
geometric mean of the current group's (non-empty) row sizes passes the
`2.5` test. -/
def specSplitGo : List segmentedField → List segmentedField → List (List segmentedField)
  | [], group => [group]
  | fld :: rest, group =>
      let size := fieldSize fld
      if 0 < size ∧ 0 < lastRowSize group ∧ (40 < lastRowSize group ∨ 40 < size) ∧
          specRatioCond size (groupSizes group) then
        group :: specSplitGo rest [fld]
      else
        specSplitGo rest (group ++ [fld])

/-- Claim-side splitter over a whole field list. -/
def specSplitFields (fields : List segmentedField) : List (List segmentedField) :=
  specSplitGo fields []

lemma lastRowSize_reverse_cons (fld : segmentedField) (acc : List segmentedField) :
    lastRowSize ((fld :: acc).reverse) = fieldSize fld := by
  unfold lastRowSize
  rw [List.reverse_cons, List.getLast?_concat]

lemma lastRowSize_pos_groupSizes (g : List segmentedField) (h : 0 < lastRowSize g) :
    0 < (groupSizes g).length := by
  unfold lastRowSize at h
  cases hg : g.getLast? with
  | none => rw [hg] at h; simp at h
  | some a =>
      rw [hg] at h
      have hmem : a ∈ g := by
        have h2 := List.mem_getLast?_eq_getLast (l := g) (x := a) (by simp [hg])
        rcases h2 with ⟨hne, rfl⟩
        exact List.getLast_mem hne
      have hin : fieldSize a ∈ groupSizes g := by
        unfold groupSizes
        rw [List.mem_filter]
        exact ⟨List.mem_map_of_mem fieldSize hmem, by simpa using h⟩
      exact List.length_pos.mpr (List.ne_nil_of_mem hin)

lemma groupSizes_append_single (g : List segmentedField) (fld : segmentedField) :
    groupSizes (g ++ [fld]) =
      groupSizes g ++ if 0 < fieldSize fld then [fieldSize fld] else [] := by
  unfold groupSizes
  rw [List.map_append, List.filter_append]
  by_cases h : 0 < fieldSize fld
  · simp [h]
  · simp [h]

lemma splitGo_eq_spec (rest : List segmentedField) :
    ∀ acc : List segmentedField,
      splitGo rest acc (lastRowSize acc.reverse) (groupSizes acc.reverse).length
          (groupSizes acc.reverse).prod
        = specSplitGo rest acc.reverse := by
  induction rest with
  | nil => intro acc; rfl
  | cons fld rest ih =>
      intro acc
      unfold splitGo specSplitGo
      have hcnt : 0 < lastRowSize acc.reverse → 0 < (groupSizes acc.reverse).length :=
        lastRowSize_pos_groupSizes acc.reverse
      have hcond : (0 < fieldSize fld ∧ 0 < lastRowSize acc.reverse ∧
            0 < (groupSizes acc.reverse).length ∧
            (40 < lastRowSize acc.reverse ∨ 40 < fieldSize fld) ∧
            ratioSplitCond (fieldSize fld) (groupSizes acc.reverse).length
              (groupSizes acc.reverse).prod = true) ↔
          (0 < fieldSize fld ∧ 0 < lastRowSize acc.reverse ∧
            (40 < lastRowSize acc.reverse ∨ 40 < fieldSize fld) ∧
            specRatioCond (fieldSize fld) (groupSizes acc.reverse)) := by
        unfold ratioSplitCond specRatioCond
        constructor
        · rintro ⟨h1, h2, h3, h4, h5⟩
          refine ⟨h1, h2, h4, ?_⟩
          simpa using h5
        · rintro ⟨h1, h2, h4, h5⟩
          refine ⟨h1, h2, hcnt h2, h4, ?_⟩
          simpa using h5
      by_cases hc : 0 < fieldSize fld ∧ 0 < lastRowSize acc.reverse ∧
          (40 < lastRowSize acc.reverse ∨ 40 < fieldSize fld) ∧
          specRatioCond (fieldSize fld) (groupSizes acc.reverse)
      · rw [if_pos (hcond.mpr hc), if_pos hc]
        have h1 := ih [fld]
        have e1 : lastRowSize ([fld].reverse) = fieldSize fld := by
          simp [lastRowSize]
        have e2 : groupSizes ([fld].reverse) = [fieldSize fld] := by
          unfold groupSizes
          simp [hc.1]
        rw [e1, e2] at h1
        simp only [List.length_cons, List.length_nil, List.prod_cons, List.prod_nil,
          mul_one] at h1
        exact congrArg (acc.reverse :: ·) h1
      · rw [if_neg (fun h => hc (hcond.mp h)), if_neg hc]
        have h1 := ih (fld :: acc)
        have e1 : lastRowSize ((fld :: acc).reverse) = fieldSize fld :=
          lastRowSize_reverse_cons fld acc
        have e2 : groupSizes ((fld :: acc).reverse) =
            groupSizes acc.reverse ++ if 0 < fieldSize fld then [fieldSize fld] else [] := by
          rw [List.reverse_cons]
          exact groupSizes_append_single acc.reverse fld
        rw [e1, e2] at h1
        rw [List.reverse_cons] at h1
        by_cases hsz : 0 < fieldSize fld
        · rw [if_pos hsz] at h1
          simp only [List.length_append, List.length_cons, List.length_nil,
            List.prod_append, List.prod_cons, List.prod_nil, mul_one, Nat.zero_add] at h1
          rw [if_pos hsz, if_pos hsz]
          exact h1
        · rw [if_neg hsz] at h1
          simp only [List.append_nil] at h1
          rw [if_neg hsz, if_neg hsz]
          exact h1

lemma specSplitGo_join (rest : List segmentedField) :
    ∀ group : List segmentedField, (specSplitGo rest group).join = group ++ rest := by
  induction rest with
  | nil => intro group; simp [specSplitGo]
  | cons fld rest ih =>
      intro group
      unfold specSplitGo
      by_cases hc : 0 < fieldSize fld ∧ 0 < lastRowSize group ∧
          (40 < lastRowSize group ∨ 40 < fieldSize fld) ∧
          specRatioCond (fieldSize fld) (groupSizes group)
      · rw [if_pos hc]
        simp [ih [fld]]
      · rw [if_neg hc]
        simp [ih (group ++ [fld])]

lemma ratioSplitCond_iff_real (size count prod : Nat) (hc : 0 < count) (hs : 0 < size)
    (hp : 0 < prod) :
    ratioSplitCond size count prod = true ↔
      ((size : ℝ) / (prod : ℝ) ^ ((1 : ℝ) / (count : ℝ)) ≤ 2 / 5 ∨
       (5 : ℝ) / 2 ≤ (size : ℝ) / (prod : ℝ) ^ ((1 : ℝ) / (count : ℝ))) := by
  have hm : (0 : ℝ) < (prod : ℝ) ^ ((1 : ℝ) / (count : ℝ)) :=
    Real.rpow_pos_of_pos (by exact_mod_cast hp) _
  set m : ℝ := (prod : ℝ) ^ ((1 : ℝ) / (count : ℝ)) with hmdef
  have hcount : (count : ℝ) ≠ 0 := by exact_mod_cast hc.ne.symm
  have hmpow : m ^ count = (prod : ℝ) := by
    rw [hmdef, ← Real.rpow_natCast (((prod : ℝ) ^ ((1 : ℝ) / (count : ℝ)))) count,
      ← Real.rpow_mul (by positivity)]
    rw [one_div, inv_mul_cancel₀ hcount, Real.rpow_one]
  have key1 : (size : ℝ) / m ≤ 2 / 5 ↔
      5 ^ count * size ^ count ≤ 2 ^ count * prod := by
    rw [div_le_div_iff hm (by norm_num : (0 : ℝ) < 5)]
    rw [show ((size : ℝ) * 5 ≤ 2 * m) ↔ ((size : ℝ) * 5) ^ count ≤ (2 * m) ^ count from
      (pow_le_pow_iff_left (by positivity) (by positivity) hc.ne.symm).symm]
    rw [mul_pow, mul_pow, hmpow]
    constructor
    · intro h
      have := h
      rw [mul_comm ((size : ℝ) ^ count) (5 ^ count)] at this
      exact_mod_cast this
    · intro h
      have : (5 : ℝ) ^ count * (size : ℝ) ^ count ≤ 2 ^ count * (prod : ℝ) := by
        exact_mod_cast h
      rw [mul_comm ((5 : ℝ) ^ count)] at this
      exact this
  have key2 : (5 : ℝ) / 2 ≤ (size : ℝ) / m ↔
      5 ^ count * prod ≤ 2 ^ count * size ^ count := by
    rw [div_le_div_iff (by norm_num : (0 : ℝ) < 2) hm]
    rw [show ((5 : ℝ) * m ≤ (size : ℝ) * 2) ↔ ((5 : ℝ) * m) ^ count ≤ ((size : ℝ) * 2) ^ count from
      (pow_le_pow_iff_left (by positivity) (by positivity) hc.ne.symm).symm]
    rw [mul_pow, mul_pow, hmpow]
    constructor
    · intro h
      have : (5 : ℝ) ^ count * (prod : ℝ) ≤ (size : ℝ) ^ count * 2 ^ count := by
        exact_mod_cast h
      rw [mul_comm ((size : ℝ) ^ count)] at this
      exact_mod_cast this
    · intro h
      have : (5 : ℝ) ^ count * (prod : ℝ) ≤ 2 ^ count * (size : ℝ) ^ count := by
        exact_mod_cast h
      rw [mul_comm ((2 : ℝ) ^ count)] at this
      exact this
  unfold ratioSplitCond
  rw [Bool.or_eq_true, decide_eq_true_eq, decide_eq_true_eq]
  rw [← key1, ← key2]

/-- C4.  The segmented-field splitter coincides with the claim-side
splitter: a sub-group split is forced between consecutive rows exactly when
both rows are non-empty, either side exceeds the small-row threshold 40,
and the ratio of the next row's size to the geometric mean of the current
group's non-empty row sizes is at most `1/2.5` or at least `2.5`; the
concatenation of the yielded sub-slices is the input in order; and the
exact-arithmetic ratio test used in the embedding agrees with the
real-number geometric-mean reading of the claim. -/
theorem c4_split_segmented_fields (fields : List segmentedField) :
    splitSegmentedFields fields = specSplitFields fields ∧
    (specSplitFields fields).join = fields ∧
    (∀ size count prod : Nat, 0 < count → 0 < size → 0 < prod →
      (ratioSplitCond size count prod = true ↔
        ((size : ℝ) / (prod : ℝ) ^ ((1 : ℝ) / (count : ℝ)) ≤ 2 / 5 ∨
         (5 : ℝ) / 2 ≤ (size : ℝ) / (prod : ℝ) ^ ((1 : ℝ) / (count : ℝ))))) := by
  refine ⟨?_, ?_, ?_⟩
  · have h := splitGo_eq_spec fields []
    simpa [splitSegmentedFields, specSplitFields, lastRowSize, groupSizes] using h
  · simpa using specSplitGo_join fields []
  · intro size count prod hc hs hp
    exact ratioSplitCond_iff_real size count prod hc hs hp

/-- Rows of sizes 50, 50, 200 used by the C4 witness. -/
def c4row (n : Nat) : segmentedField :=
  { typeName := String.mk (List.replicate n 'a'), fieldName := "" }

set_option maxRecDepth 4000 in
/-- Witness for C4 at a concrete input: the 200-wide row is split off after
the two 50-wide rows, the concatenation is the input, and the ratio test
fires at size 200 against two accumulated sizes of product 2500. -/
theorem c4_split_segmented_fields_witness :
    splitSegmentedFields [c4row 50, c4row 50, c4row 200] =
      specSplitFields [c4row 50, c4row 50, c4row 200] ∧
    specSplitFields [c4row 50, c4row 50, c4row 200] =
      [[c4row 50, c4row 50], [c4row 200]] ∧
    (0 < 2 ∧ 0 < 200 ∧ 0 < 2500) ∧
    ((200 : ℝ) / (2500 : ℝ) ^ ((1 : ℝ) / (2 : ℝ)) ≤ 2 / 5 ∨
     (5 : ℝ) / 2 ≤ (200 : ℝ) / (2500 : ℝ) ^ ((1 : ℝ) / (2 : ℝ))) := by
  have h := c4_split_segmented_fields [c4row 50, c4row 50, c4row 200]
  refine ⟨h.1, by decide, by decide, ?_⟩
  have h3 := (h.2.2 200 2 2500 (by decide) (by decide) (by decide)).mp (by decide)
  exact_mod_cast h3

/-- Error recorded by `writeNode` on an unexpected (nil) node. -/
def unexpectedNodeMsg : String := "unexpected node"

/-- A comment token: raw text, its leading whitespace, and the virtual
flag. -/
structure CComment where
  raw : String
  lws : String
  virtual : Bool
deriving DecidableEq, Repr

/-- Kind of a terminal token: a rune node, an identifier/keyword, or a
string literal (whose emission rewrites outer single quotes). -/
inductive TokKind where
  | runeK
  | identK
  | strlitK
deriving DecidableEq, Repr

/-- A terminal token as consumed by `writeInline`: its kind, text, leading
whitespace, and leading/trailing comments. -/
structure CTok where
  kind : TokKind
  text : String
  lws : String
  lead : List CComment
  trail : List CComment
deriving DecidableEq, Repr

/-- A single-quote character. -/
def squote : Char := Char.ofNat 39

/-- A double-quote character. -/
def dquote : Char := Char.ofNat 34

/-- Embedding of the quote normalization in `writeStringLiteral`
(alg.go:1816-1827): outermost single quotes are rewritten to double
quotes. -/
def quoteRewriteChars (l : List Char) : List Char :=
  if 1 < l.length ∧ l.head? = some squote ∧ l.getLast? = some squote then
    dquote :: ((l.drop 1).dropLast ++ [dquote])
  else l

/-- Loop body of `writeInlineComments` (alg.go:2310-2333): virtual comments
are skipped; a space precedes a comment that is not the first, has leading
whitespace, or follows a `;` or a closing brace; line comments are rewritten
to C-style, block comments have their newlines collapsed. -/
def goInlineComments : Fmt → Nat → List CComment → Fmt
  | f, _, [] => f
  | f, i, c :: rest =>
      if c.virtual then goInlineComments f (i + 1) rest
      else
        let f :=
          if 0 < i ∨ c.lws ≠ "" ∨ f.lastWritten = ';' ∨ f.lastWritten = '\x7d' then Space f
          else f
        let text :=
          if startsWith2 c.raw.data '/' '/' then
            "/* " ++ String.mk (trimChars (c.raw.data.drop 2)) ++ " */"
          else String.mk (joinSpace ((splitLines c.raw.data).map trimChars))
        goInlineComments (WriteString f text) (i + 1) rest

/-- Embedding of `writeInlineComments`. -/
def writeInlineCommentsGo (f : Fmt) (cs : List CComment) : Fmt :=
  goInlineComments f 0 cs

/-- Embedding of the `writeNode` dispatch for a terminal token: `writeRune`
adjusts `pendingIndent` for runes in the opening/closing sets; `writeIdent`
and `writeKeyword` write the identifier text; `writeStringLiteral` writes
the raw text with outer single quotes normalized. -/
def writeNodeTok (f : Fmt) (t : CTok) : Fmt :=
  match t.kind with
  | TokKind.runeK =>
      let f :=
        if ("\x7b[(<".data).contains (firstRune t.text) then
          { f with pendingIndent := f.pendingIndent + 1 }
        else if ("\x7d])>".data).contains (firstRune t.text) then
          { f with pendingIndent := f.pendingIndent - 1 }
        else f
      WriteString f t.text
  | TokKind.identK => WriteString f t.text
  | TokKind.strlitK => WriteString f (String.mk (quoteRewriteChars t.text.data))

/-- The `previousNode` summary of a token. -/
def tokPrev (t : CTok) : PrevNode :=
  match t.kind with
  | TokKind.runeK => PrevNode.runeN (firstRune t.text)
  | _ => PrevNode.otherN

/-- Embedding of `writeInline` (alg.go:2070-2094) for a terminal token:
raise the inline flag, write leading comments (with a space when the token
has leading whitespace), the token itself, then trailing comments; the
deferred handlers record the node as previous and clear the inline flag. -/
def writeInlineTok (f : Fmt) (t : CTok) : Fmt :=
  let f := { f with inline := true }
  let f :=
    if t.lead ≠ [] then
      let f := writeInlineCommentsGo f t.lead
      if t.lws ≠ "" then Space f else f
    else f
  let f := writeNodeTok f t
  let f := writeInlineCommentsGo f t.trail
  { f with previousNode := some (tokPrev t), inline := false }

/-- A compact option entry (`*ast.OptionNode` inside `[...]`): the option
name (abstracted to one inline token; `nil` when absent), the equals rune,
the value (restricted to simple terminal values; the compound-string-literal
early-return path of alg.go:1398-1404 is outside this model), and the
separator rune attached by the parser. -/
structure OptEntry where
  name : Option CTok
  equals : Option CTok
  val : Option CTok
  semicolon : Option CTok
deriving DecidableEq, Repr

/-- The stray-entry test of alg.go:1389: name, equals and value absent but a
separator present. -/
def isStray (o : OptEntry) : Bool :=
  o.name.isNone && o.equals.isNone && o.val.isNone && o.semicolon.isSome

/-- The token emission for one non-stray entry before its separator
(alg.go:1393-1406): the name (nothing on a nil name, since
`writeOptionName` returns immediately on nil), a pending space, the equals
rune when present, a pending space, then the value (a nil value reaches
`writeNode`'s default case, which records an error). -/
def emitEntryTokens (f : Fmt) (o : OptEntry) : Fmt :=
  let f1 :=
    match o.name with
    | some t => writeInlineTok f t
    | none => f
  let f2 := Space f1
  let f3 :=
    match o.equals with
    | some t => writeInlineTok f2 t
    | none => f2
  let f4 := Space f3
  match o.val with
  | some t => writeInlineTok f4 t
  | none => { f4 with err := f4.err ++ [unexpectedNodeMsg], inline := false }

/-- Separator normalization of alg.go:1409-1411: a separator whose rune is
not `,` has its rune rewritten to `,` in place. -/
def patchSep (sep : CTok) : CTok :=
  if sep.text ≠ "," then { sep with text := "," } else sep

/-- Embedding of the non-expanded rendering loop of `writeCompactOptions`
(alg.go:1388-1415).  Returns the final writer state and the (possibly
patched) entries: a stray entry is skipped; a non-last entry with a
separator has the separator normalized to `,`, written inline, and followed
by a pending space. -/
def writeCompactOptsLoop : Fmt → List OptEntry → Fmt × List OptEntry
  | f, [] => (f, [])
  | f, o :: rest =>
      if isStray o then
        let r := writeCompactOptsLoop f rest
        (r.1, o :: r.2)
      else
        let f5 := emitEntryTokens f o
        match o.semicolon with
        | some sep =>
            if rest ≠ [] then
              let sep2 := patchSep sep
              let r := writeCompactOptsLoop (Space (writeInlineTok f5 sep2)) rest
              (r.1, { o with semicolon := some sep2 } :: r.2)
            else
              let r := writeCompactOptsLoop f5 rest
              (r.1, o :: r.2)
        | none =>
            let r := writeCompactOptsLoop f5 rest
            (r.1, o :: r.2)

/-- Embedding of the non-expanded branch of `writeCompactOptions`
(alg.go:1386-1417): with at least one entry, the open bracket, the entry
loop, and the close bracket are written inline (the `inCompactOptions` flag
being raised for the duration). -/
def writeCompactOptionsCompactForm (f : Fmt) (ob cb : CTok) (opts : List OptEntry) :
    Fmt × List OptEntry :=
  if opts = [] then (f, opts)
  else
    let f0 := { f with inCompactOptions := true }
    let f1 := writeInlineTok f0 ob
    let r := writeCompactOptsLoop f1 opts
    let f2 := writeInlineTok r.1 cb
    ({ f2 with inCompactOptions := false }, r.2)

lemma loop_cons_stray (f : Fmt) (o : OptEntry) (rest : List OptEntry)
    (hs : isStray o = true) :
    writeCompactOptsLoop f (o :: rest) =
      ((writeCompactOptsLoop f rest).1, o :: (writeCompactOptsLoop f rest).2) := by
  simp only [writeCompactOptsLoop]
  rw [if_pos hs]

lemma loop_cons_sep (f : Fmt) (o : OptEntry) (rest : List OptEntry) (sep : CTok)
    (hs : isStray o = false) (hsem : o.semicolon = some sep) (hne : rest ≠ []) :
    writeCompactOptsLoop f (o :: rest) =
      ((writeCompactOptsLoop (Space (writeInlineTok (emitEntryTokens f o) (patchSep sep))) rest).1,
        { o with semicolon := some (patchSep sep) } ::
          (writeCompactOptsLoop (Space (writeInlineTok (emitEntryTokens f o) (patchSep sep))) rest).2) := by
  simp only [writeCompactOptsLoop]
  rw [if_neg (by simp [hs]), hsem]
  dsimp only
  rw [if_pos hne]

lemma loop_cons_sep_last (f : Fmt) (o : OptEntry) (sep : CTok)
    (hs : isStray o = false) (hsem : o.semicolon = some sep) :
    writeCompactOptsLoop f [o] = (emitEntryTokens f o, [o]) := by
  simp only [writeCompactOptsLoop]
  rw [if_neg (by simp [hs]), hsem]
  dsimp only
  simp

lemma loop_cons_nosep (f : Fmt) (o : OptEntry) (rest : List OptEntry)
    (hs : isStray o = false) (hsem : o.semicolon = none) :
    writeCompactOptsLoop f (o :: rest) =
      ((writeCompactOptsLoop (emitEntryTokens f o) rest).1,
        o :: (writeCompactOptsLoop (emitEntryTokens f o) rest).2) := by
  simp only [writeCompactOptsLoop]
  rw [if_neg (by simp [hs]), hsem]

/-- Formatter state used by the C10 scenario. -/
def c10fmt : Fmt := NewFormatter (fun _ => false)

/-- Open bracket token of the C10 scenario. -/
def c10open : CTok := { kind := TokKind.runeK, text := "[", lws := "", lead := [], trail := [] }

/-- Close bracket token of the C10 scenario. -/
def c10close : CTok := { kind := TokKind.runeK, text := "]", lws := "", lead := [], trail := [] }

/-- The real entry `deprecated = true` with a trailing comma separator. -/
def c10real : OptEntry :=
  { name := some { kind := TokKind.identK, text := "deprecated", lws := " ", lead := [], trail := [] }
    equals := some { kind := TokKind.runeK, text := "=", lws := " ", lead := [], trail := [] }
    val := some { kind := TokKind.identK, text := "true", lws := " ", lead := [], trail := [] }
    semicolon := some { kind := TokKind.runeK, text := ",", lws := "", lead := [], trail := [] } }

/-- A stray entry: no name, equals or value, only a separator rune. -/
def c10stray : OptEntry :=
  { name := none, equals := none, val := none
    semicolon := some { kind := TokKind.runeK, text := ",", lws := "", lead := [], trail := [] } }

/-- Counterexample to C10: with the stray entry in last position the output
keeps the preceding entry's trailing comma, so the remaining entries are
not printed as if the stray entry were absent. -/
theorem c10_counterexample :
    isStray c10stray = true ∧
    (writeCompactOptionsCompactForm c10fmt c10open c10close [c10real, c10stray]).1.output
      = "[deprecated = true,]".data ∧
    (writeCompactOptionsCompactForm c10fmt c10open c10close [c10real]).1.output
      = "[deprecated = true]".data ∧
    (writeCompactOptionsCompactForm c10fmt c10open c10close [c10real, c10stray]).1.output ≠
      (writeCompactOptionsCompactForm c10fmt c10open c10close [c10real]).1.output := by
  refine ⟨rfl, rfl, rfl, by decide⟩

/-- The last entry of the list, if any, is not a stray entry. -/
def lastNotStray (opts : List OptEntry) : Prop :=
  ∀ o, opts.getLast? = some o → isStray o = false

lemma lastNotStray_tail {o : OptEntry} {rest : List OptEntry}
    (h : lastNotStray (o :: rest)) (hne : rest ≠ []) : lastNotStray rest := by
  intro x hx
  apply h
  cases rest with
  | nil => exact absurd rfl hne
  | cons r rs => rw [List.getLast?_cons_cons]; exact hx

lemma lastNotStray_stray_head {o : OptEntry} {rest : List OptEntry}
    (h : lastNotStray (o :: rest)) (hs : isStray o = true) : rest ≠ [] := by
  intro hrest
  subst hrest
  have h2 := h o (by simp)
  rw [h2] at hs
  cases hs

lemma filter_notStray_ne_nil {rest : List OptEntry} (hne : rest ≠ [])
    (h : lastNotStray rest) : rest.filter (fun o => !isStray o) ≠ [] := by
  have hlast := List.getLast?_eq_getLast_of_ne_nil hne
  have hmem : rest.getLast hne ∈ rest := List.getLast_mem hne
  have hstray := h _ hlast
  have hf : rest.getLast hne ∈ rest.filter (fun o => !isStray o) := by
    rw [List.mem_filter]
    exact ⟨hmem, by rw [hstray]; rfl⟩
  exact List.ne_nil_of_mem hf

lemma writeCompactOptsLoop_filter (opts : List OptEntry) : ∀ f : Fmt, lastNotStray opts →
    (writeCompactOptsLoop f opts).1 =
      (writeCompactOptsLoop f (opts.filter (fun o => !isStray o))).1 := by
  induction opts with
  | nil => intro f h; rfl
  | cons o rest ih =>
      intro f h
      by_cases hs : isStray o = true
      · have hne := lastNotStray_stray_head h hs
        have htail := lastNotStray_tail h hne
        have hfl : (o :: rest).filter (fun x => !isStray x) =
            rest.filter (fun x => !isStray x) := by
          rw [List.filter_cons]
          simp [hs]
        rw [hfl, loop_cons_stray f o rest hs]
        exact ih f htail
      · have hs2 : isStray o = false := by
          cases hb : isStray o with
          | true => exact absurd hb hs
          | false => rfl
        have hfl : (o :: rest).filter (fun x => !isStray x) =
            o :: rest.filter (fun x => !isStray x) := by
          rw [List.filter_cons]
          simp [hs2]
        rw [hfl]
        cases rest with
        | nil => simp only [List.filter_nil]
        | cons r rs =>
            have htail := lastNotStray_tail h (by simp)
            have hfne := filter_notStray_ne_nil (by simp) htail
            cases hsem : o.semicolon with
            | some sep =>
                rw [loop_cons_sep f o (r :: rs) sep hs2 hsem (by simp)]
                cases hf : (r :: rs).filter (fun x => !isStray x) with
                | nil => exact absurd hf hfne
                | cons fr frs =>
                    rw [loop_cons_sep f o (fr :: frs) sep hs2 hsem (by simp)]
                    have := ih (Space (writeInlineTok (emitEntryTokens f o) (patchSep sep))) htail
                    rw [hf] at this
                    exact this
            | none =>
                rw [loop_cons_nosep f o (r :: rs) hs2 hsem]
                cases hf : (r :: rs).filter (fun x => !isStray x) with
                | nil => exact absurd hf hfne
                | cons fr frs =>
                    rw [loop_cons_nosep f o (fr :: frs) hs2 hsem]
                    have := ih (emitEntryTokens f o) htail
                    rw [hf] at this
                    exact this

/-- C10 amended.  In the non-expanded rendering, every stray entry (name,
equals and value absent, separator present) contributes nothing, and
provided the last entry of the list is not a stray entry the writer state —
in particular the output — is exactly the one produced on the list with all
stray entries removed.  (When the last entry is a stray, the entry before
it still counts as non-last and keeps its trailing comma, as the
counterexample shows.) -/
theorem c10_stray_entries (f : Fmt) (ob cb : CTok) (opts : List OptEntry)
    (h : lastNotStray opts) :
    (writeCompactOptionsCompactForm f ob cb opts).1 =
      (writeCompactOptionsCompactForm f ob cb (opts.filter (fun o => !isStray o))).1 := by
  unfold writeCompactOptionsCompactForm
  cases hop : opts with
  | nil => simp
  | cons o rest =>
      rw [← hop]
      have hne : opts ≠ [] := by rw [hop]; simp
      have hfne := filter_notStray_ne_nil hne h
      rw [if_neg hne, if_neg hfne]
      dsimp only
      rw [writeCompactOptsLoop_filter opts (writeInlineTok { f with inCompactOptions := true } ob) h]

/-- Witness for C10's amended claim: a stray leading comma entry followed
by a real entry renders exactly as the real entry alone. -/
theorem c10_stray_entries_witness :
    (writeCompactOptionsCompactForm c10fmt c10open c10close [c10stray, c10real]).1.output =
      (writeCompactOptionsCompactForm c10fmt c10open c10close [c10real]).1.output ∧
    (writeCompactOptionsCompactForm c10fmt c10open c10close [c10stray, c10real]).1.output =
      "[deprecated = true]".data := by
  have hln : lastNotStray [c10stray, c10real] := by
    intro o ho
    rw [List.getLast?_cons_cons] at ho
    simp only [List.getLast?_singleton, Option.some.injEq] at ho
    subst ho
    rfl
  have h := c10_stray_entries c10fmt c10open c10close [c10stray, c10real] hln
  have hfl : ([c10stray, c10real].filter (fun o => !isStray o)) = [c10real] := by rfl
  rw [hfl] at h
  exact ⟨by rw [h], by rw [h]; rfl⟩

/-- Apply `g` to every element except the last one. -/
def mapExceptLast {α : Type} (g : α → α) : List α → List α
  | [] => []
  | [x] => [x]
  | x :: y :: rest => g x :: mapExceptLast g (y :: rest)

/-- The per-entry node patch performed by the compact-options loop on a
non-last entry: a stray entry is untouched; a present separator has its
rune normalized to `,`; everything else is untouched. -/
def compactPatch (o : OptEntry) : OptEntry :=
  if isStray o then o
  else
    match o.semicolon with
    | some sep => { o with semicolon := some (patchSep sep) }
    | none => o

lemma writeCompactOptsLoop_nodes (opts : List OptEntry) :
    ∀ f : Fmt, (writeCompactOptsLoop f opts).2 = mapExceptLast compactPatch opts := by
  induction opts with
  | nil => intro f; rfl
  | cons o rest ih =>
      intro f
      by_cases hs : isStray o = true
      · rw [loop_cons_stray f o rest hs]
        cases rest with
        | nil => rfl
        | cons r rs =>
            show o :: (writeCompactOptsLoop f (r :: rs)).2 =
              compactPatch o :: mapExceptLast compactPatch (r :: rs)
            rw [ih f]
            unfold compactPatch
            rw [if_pos hs]
      · have hs2 : isStray o = false := by
          cases hb : isStray o with
          | true => exact absurd hb hs
          | false => rfl
        cases hsem : o.semicolon with
        | some sep =>
            cases rest with
            | nil =>
                rw [loop_cons_sep_last f o sep hs2 hsem]
                rfl
            | cons r rs =>
                rw [loop_cons_sep f o (r :: rs) sep hs2 hsem (by simp)]
                show { o with semicolon := some (patchSep sep) } :: _ =
                  compactPatch o :: mapExceptLast compactPatch (r :: rs)
                rw [ih]
                unfold compactPatch
                rw [if_neg (by simp [hs2]), hsem]
        | none =>
            rw [loop_cons_nosep f o rest hs2 hsem]
            cases rest with
            | nil => rfl
            | cons r rs =>
                show o :: (writeCompactOptsLoop (emitEntryTokens f o) (r :: rs)).2 =
                  compactPatch o :: mapExceptLast compactPatch (r :: rs)
                rw [ih]
                unfold compactPatch
                rw [if_neg (by simp [hs2]), hsem]

/-- A separator rune node: its rune value and virtual flag. -/
structure RuneNd where
  rune : Char
  virtual : Bool
deriving DecidableEq, Repr

/-- The node mutation of `writeEnumValue` (alg.go:970-972) on the enum
value's terminator: a present terminator whose rune is not `;` has its rune
rewritten to `;` in place. -/
def writeEnumValueSemicolonPatch (sem : Option RuneNd) : Option RuneNd :=
  match sem with
  | some r => if r.rune ≠ ';' then some { r with rune := ';' } else some r
  | none => none

/-- A message-literal field (`*ast.MessageFieldNode`): name, the `:`
separator, value and the trailing separator attached by the parser. -/
structure MsgLitField where
  name : Option CTok
  sep : Option RuneNd
  val : Option CTok
  semicolon : Option RuneNd
deriving DecidableEq, Repr

/-- The node mutation of `maybeWriteCompactMessageLiteral`
(alg.go:776-778) over the element list: a non-last element lacking a
separator gets a fresh non-virtual `,` rune node attached. -/
def msgLitLoopPatch : List MsgLitField → List MsgLitField
  | [] => []
  | e :: rest =>
      if rest ≠ [] ∧ e.semicolon = none then
        { e with semicolon := some { rune := ',', virtual := false } } :: msgLitLoopPatch rest
      else e :: msgLitLoopPatch rest

/-- Claim-side per-element patch for compact message literals: attach a
synthesized `,` exactly where the separator is missing. -/
def msgLitPatch (e : MsgLitField) : MsgLitField :=
  if e.semicolon = none then { e with semicolon := some { rune := ',', virtual := false } }
  else e

/-- Concrete enum-value terminator used in the C9 counterexample: a
non-virtual `,` rune node present in the CST. -/
def c9sep : RuneNd := { rune := ',', virtual := false }

/-- Counterexample to C9: `writeEnumValue` changes the rune value of an
enum value's separator node that is already present in the CST (a
non-virtual `,` is rewritten to `;`). -/
theorem c9_counterexample :
    writeEnumValueSemicolonPatch (some c9sep) = some { rune := ';', virtual := false } ∧
    writeEnumValueSemicolonPatch (some c9sep) ≠ some c9sep := by
  decide

/-- C9 amended.  The only CST modifications the writers perform are the
separator patches: (a) the compact-options loop rewrites, in place, the
separator rune of every non-stray non-last entry that has one to `,` and
touches nothing else (in particular the name, equals and value fields and
the last entry are untouched); (b) the compact message-literal writer
attaches a synthesized non-virtual `,` to every non-last element lacking a
separator and touches nothing else; (c) `writeEnumValue` rewrites a present
terminator rune to `;` (and attaches nothing when the terminator is
absent).  Contrary to the claim, (a) and (c) do change rune values of
separator nodes already present in the CST. -/
theorem c9_separator_patches :
    (∀ (f : Fmt) (opts : List OptEntry),
        (writeCompactOptsLoop f opts).2 = mapExceptLast compactPatch opts) ∧
    (∀ o : OptEntry,
        (compactPatch o).name = o.name ∧ (compactPatch o).equals = o.equals ∧
        (compactPatch o).val = o.val ∧
        ((compactPatch o).semicolon = o.semicolon ∨
          ∃ sep, o.semicolon = some sep ∧ sep.text ≠ "," ∧
            (compactPatch o).semicolon = some { sep with text := "," } ∧
            isStray o = false)) ∧
    (∀ elems : List MsgLitField, msgLitLoopPatch elems = mapExceptLast msgLitPatch elems) ∧
    (∀ e : MsgLitField,
        msgLitPatch e = e ∨
          (e.semicolon = none ∧
            msgLitPatch e = { e with semicolon := some { rune := ',', virtual := false } })) ∧
    (∀ r : RuneNd,
        writeEnumValueSemicolonPatch (some r) =
          if r.rune ≠ ';' then some { r with rune := ';' } else some r) ∧
    writeEnumValueSemicolonPatch none = none := by
  refine ⟨fun f opts => writeCompactOptsLoop_nodes opts f, ?_, ?_, ?_, fun r => rfl, rfl⟩
  · intro o
    unfold compactPatch patchSep
    by_cases hs : isStray o = true
    · rw [if_pos hs]
      exact ⟨rfl, rfl, rfl, Or.inl rfl⟩
    · have hs2 : isStray o = false := by
        cases hb : isStray o with
        | true => exact absurd hb hs
        | false => rfl
      rw [if_neg hs]
      cases hsem : o.semicolon with
      | none =>
          dsimp only
          exact ⟨rfl, rfl, rfl, Or.inl hsem⟩
      | some sep =>
          dsimp only
          by_cases ht : sep.text ≠ ","
          · rw [if_pos ht]
            exact ⟨rfl, rfl, rfl, Or.inr ⟨sep, rfl, ht, rfl, hs2⟩⟩
          · rw [if_neg ht]
            exact ⟨rfl, rfl, rfl, Or.inl rfl⟩
  · intro elems
    induction elems with
    | nil => rfl
    | cons e rest ih =>
        cases rest with
        | nil =>
            unfold msgLitLoopPatch
            rw [if_neg (by simp)]
            rfl
        | cons r rs =>
            unfold msgLitLoopPatch
            by_cases hsem : e.semicolon = none
            · rw [if_pos ⟨by simp, hsem⟩]
              show _ = msgLitPatch e :: mapExceptLast msgLitPatch (r :: rs)
              rw [← ih]
              unfold msgLitPatch
              rw [if_pos hsem]
            · rw [if_neg (by simp [hsem])]
              show _ = msgLitPatch e :: mapExceptLast msgLitPatch (r :: rs)
              rw [← ih]
              unfold msgLitPatch
              rw [if_neg hsem]
  · intro e
    unfold msgLitPatch
    by_cases hsem : e.semicolon = none
    · rw [if_pos hsem]
      exact Or.inr ⟨hsem, rfl⟩
    · rw [if_neg hsem]
      exact Or.inl rfl

/-- Embedding of `isCommentPrefix` (alg.go:2465-2475): a shared
block-comment line prefix is any character that is not a letter or a
digit. -/
def isCommentPfxChar (c : Char) : Bool := !(c.isAlpha || c.isDigit)

/-- Walk of `computeIndent` (alg.go:2503-2521): spaces count one column,
tabs jump to the next 8-column stop, the first other character yields the
indent; a line of nothing but whitespace yields none. -/
def computeIndentGo : Nat → List Char → Option Nat
  | _, [] => none
  | pos, c :: rest =>
      if c = ' ' then computeIndentGo (pos + 1) rest
      else if c = '\t' then computeIndentGo (pos + (8 - pos % 8)) rest
      else some pos

/-- Embedding of `computeIndent`: a line trimming to the comment end is
ignored. -/
def computeIndent (l : List Char) : Option Nat :=
  if trimChars l = ['*', '/'] then none else computeIndentGo 0 l

/-- The minimum indent over the non-first comment lines (the `minIndent`
accumulation of `writeComment`, with the `-1` sentinel as `none` and the
final clamp to zero). -/
def minIndentOf (ls : List (List Char)) : Nat :=
  (ls.foldl
    (fun acc l =>
      match computeIndent l with
      | some i => some (match acc with | some m => min m i | none => i)
      | none => acc)
    none).getD 0

/-- Walk of `unindent` (alg.go:2477-2501). -/
def unindentGo : Nat → Nat → List Char → List Char
  | _, _, [] => []
  | pos, n, c :: rest =>
      if pos = n then c :: rest
      else if n < pos then List.replicate (pos - n) ' ' ++ c :: rest
      else if c = ' ' then unindentGo (pos + 1) n rest
      else if c = '\t' then unindentGo (pos + (8 - pos % 8)) n rest
      else c :: rest

/-- Embedding of `unindent`. -/
def goUnindent (l : List Char) (n : Nat) : List Char := unindentGo 0 n l

/-- Go `strings.TrimRightFunc(s, unicode.IsSpace)` over characters. -/
def trimRightChars (l : List Char) : List Char :=
  (l.reverse.dropWhile Char.isWhitespace).reverse

/-- The shared-prefix scan of `writeComment` over the comment lines from
index 2 on: an empty prefix is absorbing, `*/` lines are skipped, and a
differing line prefix clears the prefix. -/
def prefixScan : List Char → List (List Char) → List Char
  | pfx, [] => pfx
  | pfx, l :: rest =>
      if pfx = [] then pfx
      else
        let lt := trimChars l
        if lt = ['*', '/'] then prefixScan pfx rest
        else
          let lp :=
            match lt with
            | c :: _ => if isCommentPfxChar c then [c] else []
            | [] => ([] : List Char)
          if lp ≠ pfx then prefixScan [] rest else prefixScan pfx rest

/-- The shared single-character prefix of the non-first comment lines
(the `prefix` accumulation of `writeComment`). -/
def commentPfx : List (List Char) → List Char
  | [] => []
  | l1 :: rest =>
      let lt := trimChars l1
      if lt = ['*', '/'] then []
      else
        let lp :=
          match lt with
          | c :: _ => if isCommentPfxChar c then [c] else []
          | [] => ([] : List Char)
        prefixScan lp rest

/-- The per-line rewrite of `writeComment` (alg.go:2401-2448): trimmed
lines for blanks, comment ends and prefixed comments, otherwise unindent
by the minimum indent and trim the right; non-first lines other than the
comment end are re-indented under the comment opener; a prefixed comment
end is aligned with the prefix column. -/
def xformLine (pfx : List Char) (mi : Nat) (first : Bool) (line : List Char) : List Char :=
  let t := trimChars line
  let l1 :=
    if t = [] ∨ t = ['*', '/'] ∨ pfx ≠ [] then t
    else trimRightChars (goUnindent line mi)
  let l2 :=
    if first = false ∧ l1 ≠ ['*', '/'] then
      (if pfx = [] then ' ' :: ' ' :: ' ' :: l1 else ' ' :: l1)
    else l1
  if l2 = ['*', '/'] ∧ pfx = ['*'] then ' ' :: l2 else l2

/-- The line emission loop of `writeComment`: every line but the last is
printed with `P`; the last is written without a trailing newline. -/
def writeCommentLines : Fmt → List (List Char) → Fmt
  | f, [] => f
  | f, [l] => WriteString (Indent f none) (String.mk l)
  | f, l :: l2 :: rest => writeCommentLines (P f (String.mk l)) (l2 :: rest)

/-- Embedding of `writeComment` (alg.go:2365-2463): a block comment
containing newlines is re-indented line by line; any other comment is
written trimmed at the current indentation. -/
def writeCommentGo (f : Fmt) (raw : String) : Fmt :=
  if startsWith2 raw.data '/' '*' ∧ 0 < newlineCountStr raw then
    let lines := splitLines raw.data
    let mi := minIndentOf lines.tail
    let pfx := commentPfx lines.tail
    let tlines :=
      match lines with
      | [] => []
      | l0 :: rest => xformLine pfx mi true l0 :: rest.map (xformLine pfx mi false)
    writeCommentLines f tlines
  else WriteString (Indent f none) (goTrim raw)

/-- Embedding of `isOpenBrace` (alg.go:2611-2622) over the previous-node
summary. -/
def isOpenBracePrev (p : Option PrevNode) : Bool :=
  match p with
  | some (PrevNode.runeN c) => c = '\x7b' || c = '[' || c = '<'
  | _ => false

/-- Loop of `writeMultilineCommentsMaybeCompact` (alg.go:2268-2289): a
blank line is preserved before a comment block when not compact; each
comment is written followed by a newline. -/
def goMultilineComments : Fmt → Bool → List CComment → Fmt
  | f, _, [] => f
  | f, compact, c :: rest =>
      let f := if compact = false ∧ 1 < newlineCountStr c.lws then P f "" else f
      goMultilineComments (WriteString (writeCommentGo f c.raw) "\n") false rest

/-- Embedding of `writeMultilineCommentsMaybeCompact`. -/
def writeMultilineCommentsMaybeCompactGo (f : Fmt) (forceCompact : Bool)
    (cs : List CComment) : Fmt :=
  goMultilineComments f (forceCompact || isOpenBracePrev f.previousNode) cs

/-- Loop of `writeTrailingEndComments` (alg.go:2350-2363): a comment whose
leading whitespace contains a newline moves to the next line, later
same-line comments get a space; the line is concluded with `P ""`. -/
def goTrailingEnd : Fmt → Nat → List CComment → Fmt
  | f, _, [] => P f ""
  | f, i, c :: rest =>
      let f :=
        if c.lws ≠ "" then
          if c.lws.data.contains '\n' then P f ""
          else if 0 < i then Space f
          else f
        else f
      goTrailingEnd (writeCommentGo f c.raw) (i + 1) rest

/-- Embedding of `writeTrailingEndComments`. -/
def writeTrailingEndCommentsGo (f : Fmt) (cs : List CComment) : Fmt :=
  goTrailingEnd f 0 cs

/-- Embedding of `writeStartMaybeCompact` (alg.go:2004-2059) for a
terminal token: leading comments multiline (maybe compact), blank-line
preservation from the source whitespace, indentation, the token, then
trailing comments inline. -/
def writeStartTok (f : Fmt) (forceCompact : Bool) (t : CTok) : Fmt :=
  let cnt := newlineCountStr t.lws
  let f1 :=
    if t.lead ≠ [] then
      let fa := writeMultilineCommentsMaybeCompactGo f forceCompact t.lead
      if forceCompact = false ∧ 1 < cnt then P fa "" else fa
    else
      if (forceCompact || isOpenBracePrev f.previousNode) = false ∧ 1 < cnt then P f ""
      else f
  let f2 := Indent f1 (some (tokPrev t))
  let f3 := writeNodeTok f2 t
  let f4 := if t.trail ≠ [] then writeInlineCommentsGo f3 t.trail else f3
  { f4 with previousNode := some (tokPrev t) }

/-- Embedding of `writeLineEnd` (alg.go:2229-2252) for a terminal token:
leading comments inline, the token, a pending space, then the trailing-end
comments conclude the line. -/
def writeLineEndTok (f : Fmt) (t : CTok) : Fmt :=
  let f1 :=
    if t.lead ≠ [] then
      let fa := writeInlineCommentsGo f t.lead
      if t.lws ≠ "" then Space fa else fa
    else f
  let f2 := writeNodeTok f1 t
  let f3 := Space f2
  let f4 := writeTrailingEndCommentsGo f3 t.trail
  { f4 with previousNode := some (tokPrev t) }

/-- A `syntax` declaration: keyword, equals rune, value literal and
semicolon rune. -/
structure SyntaxDecl where
  keyword : CTok
  equals : CTok
  value : CTok
  semicolon : CTok
deriving DecidableEq, Repr

/-- A `package` declaration: keyword, optional name and semicolon rune. -/
structure PackageDecl where
  keyword : CTok
  name : Option CTok
  semicolon : CTok
deriving DecidableEq, Repr

/-- An import declaration: keyword, optional `public`/`weak` keyword, the
name string literal (with its `AsString()` value) and semicolon rune. -/
structure ImportDecl where
  keyword : CTok
  pub : Option CTok
  weak : Option CTok
  name : CTok
  nameValue : String
  semicolon : CTok
deriving DecidableEq, Repr

/-- A header-fragment file: optional syntax, optional package, imports, and
the comments attached to the EOF node.  Body declarations and file options
are outside this fragment (`writeFileTypes` and `writeFileOptions` write
nothing for it; `columnFormatElements` on an empty option group writes
nothing). -/
structure FileNode where
  syntaxDecl : Option SyntaxDecl
  packageDecl : Option PackageDecl
  importDecls : List ImportDecl
  eofComments : List CComment
deriving Repr

/-- Embedding of `writeSyntax` (alg.go:420-427). -/
def writeSyntaxGo (f : Fmt) (d : SyntaxDecl) : Fmt :=
  writeLineEndTok
    (writeInlineTok (Space (writeInlineTok (Space (writeStartTok f false d.keyword)) d.equals))
      d.value)
    d.semicolon

/-- Embedding of `writePackage` (alg.go:448-455). -/
def writePackageGo (f : Fmt) (d : PackageDecl) : Fmt :=
  let f1 := Space (writeStartTok f false d.keyword)
  let f2 :=
    match d.name with
    | some t => writeInlineTok f1 t
    | none => f1
  writeLineEndTok f2 d.semicolon

/-- Embedding of `writeImport` (alg.go:462-477). -/
def writeImportGo (f : Fmt) (im : ImportDecl) (forceCompact : Bool) : Fmt :=
  let f1 := Space (writeStartTok f forceCompact im.keyword)
  let f2 :=
    match im.pub with
    | some t => Space (writeInlineTok f1 t)
    | none =>
        match im.weak with
        | some t => Space (writeInlineTok f1 t)
        | none => f1
  writeLineEndTok (writeInlineTok f2 im.name) im.semicolon

/-- Whether a token carries a comment (`nodeHasComment`). -/
def tokHasComment (t : CTok) : Bool := !t.lead.isEmpty || !t.trail.isEmpty

/-- `nodeHasComment` of an optional component (false when absent). -/
def optTokHasComment : Option CTok → Bool
  | some t => tokHasComment t
  | none => false

/-- Embedding of `importHasComment` (alg.go:2534-2547): the import node or
any of its component tokens carries a comment (the composite node's own
positional comments are those of its first and last tokens). -/
def importHasCommentHdr (im : ImportDecl) : Bool :=
  tokHasComment im.keyword || tokHasComment im.name || tokHasComment im.semicolon ||
    optTokHasComment im.pub || optTokHasComment im.weak

/-- Embedding of `importSortOrder` on header imports. -/
def importSortOrderHdr (im : ImportDecl) : Nat :=
  if im.pub.isSome then 2 else if im.weak.isSome then 1 else 3

/-- The `sort.Slice` comparator of `writeFileHeader` on header imports. -/
def importLessHdr (i j : ImportDecl) : Bool :=
  if goStrLt i.nameValue.data j.nameValue.data then true
  else if goStrLt j.nameValue.data i.nameValue.data then false
  else if importSortOrderHdr i > importSortOrderHdr j then true
  else if importSortOrderHdr i < importSortOrderHdr j then false
  else !(importHasCommentHdr j)

/-- Embedding of `leadingCommentsContainBlankLine` (alg.go:2523-2532) for
an import node (whose positional info is its first token's). -/
def leadingCommentsContainBlankLineHdr (im : ImportDecl) : Bool :=
  im.keyword.lead.any (fun c => 1 < newlineCountStr c.lws) ||
    1 < newlineCountStr im.keyword.lws

/-- Whether the previous sorted element shares the import's name. -/
def prevSameName (prev : Option ImportDecl) (im : ImportDecl) : Bool :=
  match prev with
  | some p => p.nameValue = im.nameValue
  | none => false

/-- The import emission loop of `writeFileHeader` (alg.go:360-373): a blank
line before the first import unless the leading comments already provide
one, and suppression of a non-commented import whose name equals the
previous sorted element's. -/
def importLoop : Fmt → List ImportDecl → Option ImportDecl → Bool → Fmt
  | f, [], _, _ => f
  | f, im :: rest, prev, isFirst =>
      let f :=
        if isFirst ∧ f.previousNode ≠ none ∧ leadingCommentsContainBlankLineHdr im = false
        then P f "" else f
      if (!isFirst) = true ∧ prevSameName prev im = true ∧
          importHasCommentHdr im = false then
        importLoop f rest (some im) false
      else importLoop (writeImportGo f im (!isFirst)) rest (some im) false

/-- Embedding of `writeFileHeader` (alg.go:307-396) over the header
fragment: early return on an empty header; syntax, package, the imports
sorted by the comparator (Go's unstable `sort.Slice` is modelled as
insertion sort with the same comparator; the claims proved below are
independent of which permutation the sort produces), then the file options
(none in this fragment, for which `columnFormatElements` writes
nothing). -/
def writeFileHeaderGo (f : Fmt) (file : FileNode) : Fmt :=
  if file.syntaxDecl = none ∧ file.packageDecl = none ∧ file.importDecls = [] then f
  else
    let f1 :=
      match file.syntaxDecl with
      | some d => writeSyntaxGo f d
      | none => f
    let f2 :=
      match file.packageDecl with
      | some d => writePackageGo f1 d
      | none => f1
    let sorted := file.importDecls.insertionSort (fun a b => importLessHdr a b = true)
    importLoop f2 sorted none true

/-- Embedding of `writeFile` (alg.go:278-290) over the header fragment:
the header, the body types (none in this fragment), the EOF node's leading
comments, and the final newline when anything was written and the output
does not already end in one. -/
def writeFileGo (f : Fmt) (file : FileNode) : Fmt :=
  let f1 := writeFileHeaderGo f file
  let f2 := goMultilineComments f1 (isOpenBracePrev f1.previousNode) file.eofComments
  if f2.lastWritten ≠ nulChar ∧ f2.lastWritten ≠ '\n' then P f2 "" else f2

/-- Embedding of `Run` over the header fragment: write the file, then
return the accumulated error. -/
def RunGo (sched : Nat → Bool) (file : FileNode) : Fmt × List String :=
  let f := writeFileGo (NewFormatter sched) file
  (f, f.err)

/-- A sink that never fails. -/
def okSink (f : Fmt) : Prop := ∀ n, f.failAt n = false

/-- The output ends mid-line: its last character is the last written rune,
which is neither a newline nor the NUL sentinel. -/
def endsMid (f : Fmt) : Prop :=
  f.lastWritten ≠ '\n' ∧ f.lastWritten ≠ nulChar ∧ ∃ t, f.output = t ++ [f.lastWritten]

/-- The output ends with a concluded line: exactly one trailing newline. -/
def endsClean (f : Fmt) : Prop :=
  f.lastWritten = '\n' ∧ ∃ t c, c ≠ '\n' ∧ f.output = t ++ [c, '\n']

lemma okSink_of_eq {f g : Fmt} (h : g.failAt = f.failAt) (hok : okSink f) : okSink g := by
  intro n
  rw [h]
  exact hok n

lemma write1_failAt (f : Fmt) (s : List Char) : (write1 f s).1.failAt = f.failAt := by
  unfold write1
  split <;> rfl

lemma writeRest_failAt (f : Fmt) (s : String) : (writeRest f s).failAt = f.failAt := by
  unfold writeRest
  split
  · rfl
  · exact write1_failAt _ _

lemma WriteString_failAt (f : Fmt) (s : String) :
    (WriteString f s).failAt = f.failAt := by
  unfold WriteString
  split
  · dsimp only
    split
    · split
      · exact write1_failAt _ _
      · rw [writeRest_failAt, write1_failAt]
    · exact writeRest_failAt _ _
  · exact writeRest_failAt _ _

lemma Out_keeps (f : Fmt) :
    (Out f).failAt = f.failAt ∧ (Out f).output = f.output ∧
      (Out f).lastWritten = f.lastWritten := by
  unfold Out
  split <;> exact ⟨rfl, rfl, rfl⟩

lemma Indent_failAt (f : Fmt) (n : Option PrevNode) :
    (Indent f n).failAt = f.failAt := by
  unfold Indent
  split
  · rfl
  · exact WriteString_failAt _ _

lemma P_failAt (f : Fmt) (s : String) : (P f s).failAt = f.failAt := by
  unfold P
  split
  · dsimp only
    split
    · rw [In, WriteString_failAt, WriteString_failAt, Indent_failAt]
    · split
      · rw [(Out_keeps _).1, WriteString_failAt, WriteString_failAt, Indent_failAt]
      · rw [WriteString_failAt, WriteString_failAt, Indent_failAt]
  · dsimp only
    split
    · rw [In, WriteString_failAt]
    · split
      · rw [(Out_keeps _).1, WriteString_failAt]
      · rw [WriteString_failAt]

lemma writeRest_shape (f : Fmt) (s : String) (hok : okSink f) (hne : s ≠ "") :
    (writeRest f s).output = f.output ++ s.data ∧
      (writeRest f s).lastWritten = lastRune s := by
  unfold writeRest
  rw [if_neg hne]
  unfold write1
  rw [if_neg (by simp [hok f.writeCount])]
  exact ⟨rfl, rfl⟩

lemma WriteString_shape (f : Fmt) (s : String) (hok : okSink f) (hne : s ≠ "") :
    ∃ sp, (sp = ([] : List Char) ∨ sp = [' ']) ∧
      (WriteString f s).output = f.output ++ (sp ++ s.data) ∧
      (WriteString f s).lastWritten = lastRune s := by
  unfold WriteString
  by_cases hp : f.pendingSpace = true
  · rw [if_pos hp]
    by_cases hc : (prevBlockList f.inline).contains f.lastWritten = false ∧
        (nextBlockList f.inline).contains (firstRune s) = false
    · rw [if_pos hc]
      dsimp only
      have hw : write1 { f with pendingSpace := false } [' '] = ({ f with pendingSpace := false, writeCount := f.writeCount + 1, output := f.output ++ [' '] }, true) := by
        unfold write1
        rw [if_neg (by simp [hok f.writeCount])]
      rw [hw]
      dsimp only
      rw [if_neg (by simp)]
      have h2 := writeRest_shape { f with pendingSpace := false, writeCount := f.writeCount + 1, output := f.output ++ [' '] } s (fun n => hok n) hne
      exact ⟨[' '], Or.inr rfl, by rw [h2.1]; simp, h2.2⟩
    · rw [if_neg hc]
      have h2 := writeRest_shape { f with pendingSpace := false } s (fun n => hok n) hne
      exact ⟨[], Or.inl rfl, by rw [h2.1]; simp, h2.2⟩
  · rw [if_neg hp]
    have h2 := writeRest_shape f s hok hne
    exact ⟨[], Or.inl rfl, by rw [h2.1]; simp, h2.2⟩

lemma WriteString_nl (f : Fmt) (hok : okSink f) :
    (WriteString f "\n").output = f.output ++ ['\n'] ∧
      (WriteString f "\n").lastWritten = '\n' := by
  unfold WriteString
  have hnb : (nextBlockList f.inline).contains (firstRune "\n") = true := by
    cases hin : f.inline <;> decide
  by_cases hp : f.pendingSpace = true
  · rw [if_pos hp, if_neg (fun h => by rw [h.2] at hnb; exact Bool.noConfusion hnb)]
    have h2 := writeRest_shape { f with pendingSpace := false } "\n" (fun n => hok n)
      (by decide)
    exact ⟨h2.1, h2.2⟩
  · rw [if_neg hp]
    exact writeRest_shape f "\n" hok (by decide)

lemma data_concat (s : String) (hne : s ≠ "") : ∃ u, s.data = u ++ [lastRune s] := by
  have hd : s.data ≠ [] := by
    intro hn
    apply hne
    cases s with
    | mk d => cases hn; rfl
  refine ⟨s.data.dropLast, ?_⟩
  conv_lhs => rw [← List.dropLast_append_getLast hd]
  rw [lastRune, List.getLastD_eq_getLast?, List.getLast?_eq_getLast s.data hd]
  rfl

lemma endsMid_write (f : Fmt) (s : String) (hok : okSink f) (hne : s ≠ "")
    (h1 : lastRune s ≠ '\n') (h2 : lastRune s ≠ nulChar) :
    endsMid (WriteString f s) := by
  obtain ⟨sp, _, ho, hl⟩ := WriteString_shape f s hok hne
  obtain ⟨u, hu⟩ := data_concat s hne
  refine ⟨by rw [hl]; exact h1, by rw [hl]; exact h2, f.output ++ sp ++ u, ?_⟩
  rw [ho, hu, hl]
  simp

lemma endsClean_nl (f : Fmt) (hok : okSink f) (hm : endsMid f) :
    endsClean (WriteString f "\n") := by
  obtain ⟨h1, _, t, ht⟩ := hm
  obtain ⟨ho, hl⟩ := WriteString_nl f hok
  exact ⟨hl, t, f.lastWritten, h1, by rw [ho, ht]; simp⟩

lemma P_blank_shape (f : Fmt) (hok : okSink f) :
    (P f "").output = f.output ++ ['\n'] ∧ (P f "").lastWritten = '\n' := by
  have h2 := WriteString_nl f hok
  unfold P
  rw [if_neg (by decide)]
  dsimp only
  split
  · exact ⟨h2.1, h2.2⟩
  · split
    · exact ⟨by rw [(Out_keeps _).2.1, h2.1], by rw [(Out_keeps _).2.2, h2.2]⟩
    · exact ⟨h2.1, h2.2⟩

lemma P_blank_clean (f : Fmt) (hok : okSink f) (hm : endsMid f) : endsClean (P f "") := by
  obtain ⟨h1, _, t, ht⟩ := hm
  obtain ⟨ho, hl⟩ := P_blank_shape f hok
  exact ⟨hl, t, f.lastWritten, h1, by rw [ho, ht]; simp⟩

lemma getLastD_ne_nil {α : Type} (t : List α) (h : t ≠ []) (d e : α) :
    t.getLastD d = t.getLastD e := by
  rw [List.getLastD_eq_getLast?, List.getLastD_eq_getLast?, List.getLast?_eq_getLast t h]
  rfl

lemma getLastD_concat {α : Type} (u : List α) (a d : α) :
    (u ++ [a]).getLastD d = a := by
  rw [List.getLastD_eq_getLast?, List.getLast?_concat]
  rfl

lemma exists_concat_of_ne_nil {α : Type} (l : List α) (h : l ≠ []) (d : α) :
    ∃ u, l = u ++ [l.getLastD d] := by
  refine ⟨l.dropLast, ?_⟩
  conv_lhs => rw [← List.dropLast_append_getLast h]
  rw [List.getLastD_eq_getLast?, List.getLast?_eq_getLast l h]
  rfl

lemma getLastD_map {α β : Type} (g : α → β) (l : List α) (h : l ≠ []) :
    ∀ (d : β) (e : α), (l.map g).getLastD d = g (l.getLastD e) := by
  induction l with
  | nil => exact absurd rfl h
  | cons a t ih =>
      intro d e
      cases t with
      | nil => rfl
      | cons b t2 =>
          rw [List.map_cons, List.getLastD_cons, List.getLastD_cons]
          exact ih (by simp) (g a) a

lemma ws_or_mem_dropWhile {c : Char} {l : List Char} (hm : c ∈ l)
    (hw : c.isWhitespace = false) : c ∈ l.dropWhile Char.isWhitespace := by
  have hsplit := List.takeWhile_append_dropWhile (p := Char.isWhitespace) (l := l)
  rw [← hsplit] at hm
  rcases List.mem_append.mp hm with h | h
  · have := List.mem_takeWhile_imp h
    rw [hw] at this
    exact absurd this (by simp)
  · exact h

lemma nonws_mem_trim {c : Char} {l : List Char} (hm : c ∈ l)
    (hw : c.isWhitespace = false) : c ∈ trimChars l := by
  unfold trimChars
  rw [List.mem_reverse]
  apply ws_or_mem_dropWhile _ hw
  rw [List.mem_reverse]
  exact ws_or_mem_dropWhile hm hw

lemma trim_subset {c : Char} {l : List Char} (hm : c ∈ trimChars l) : c ∈ l := by
  unfold trimChars at hm
  rw [List.mem_reverse] at hm
  have h1 := (List.dropWhile_sublist _).subset hm
  rw [List.mem_reverse] at h1
  exact (List.dropWhile_sublist _).subset h1

lemma trimRight_append_left (a l : List Char) (h : trimRightChars l ≠ []) :
    trimRightChars (a ++ l) = a ++ trimRightChars l := by
  have hne : l.reverse.dropWhile Char.isWhitespace ≠ [] := by
    intro hx
    exact h (by unfold trimRightChars; rw [hx]; rfl)
  unfold trimRightChars
  rw [List.reverse_append, List.dropWhile_append, if_neg (by simpa using hne)]
  simp

lemma trimRight_decomp (l : List Char) (h : trimChars l ≠ []) :
    trimRightChars l = l.takeWhile Char.isWhitespace ++ trimChars l := by
  have heq : trimRightChars (l.dropWhile Char.isWhitespace) = trimChars l := rfl
  conv_lhs => rw [← List.takeWhile_append_dropWhile (p := Char.isWhitespace) (l := l)]
  rw [trimRight_append_left _ _ (by rw [heq]; exact h), heq]

lemma unindentGo_shape (l : List Char) : ∀ pos n, ∃ m k,
    unindentGo pos n l = List.replicate m ' ' ++ l.drop k ∧
      ∀ c ∈ l.take k, c = ' ' ∨ c = '\t' := by
  induction l with
  | nil =>
      intro pos n
      exact ⟨0, 0, rfl, by simp⟩
  | cons c rest ih =>
      intro pos n
      by_cases h1 : pos = n
      · exact ⟨0, 0, by simp only [unindentGo, if_pos h1]; rfl, by simp⟩
      · by_cases h2 : n < pos
        · exact ⟨pos - n, 0, by simp only [unindentGo, if_neg h1, if_pos h2]; rfl, by simp⟩
        · by_cases h3 : c = ' '
          · obtain ⟨m, k, hu, hw⟩ := ih (pos + 1) n
            refine ⟨m, k + 1, ?_, ?_⟩
            · simp only [unindentGo, if_neg h1, if_neg h2, if_pos h3, List.drop_succ_cons]
              exact hu
            · intro x hx
              rw [List.take_succ_cons] at hx
              rcases List.mem_cons.mp hx with hx | hx
              · exact Or.inl (hx.trans h3)
              · exact hw x hx
          · by_cases h4 : c = '\t'
            · obtain ⟨m, k, hu, hw⟩ := ih (pos + (8 - pos % 8)) n
              refine ⟨m, k + 1, ?_, ?_⟩
              · simp only [unindentGo, if_neg h1, if_neg h2, if_neg h3, if_pos h4,
                  List.drop_succ_cons]
                exact hu
              · intro x hx
                rw [List.take_succ_cons] at hx
                rcases List.mem_cons.mp hx with hx | hx
                · exact Or.inr (hx.trans h4)
                · exact hw x hx
            · refine ⟨0, 0, ?_, by simp⟩
              simp only [unindentGo, if_neg h1, if_neg h2, if_neg h3, if_neg h4]
              rfl

lemma dropWhile_drop_of_ws (l : List Char) : ∀ k, (∀ c ∈ l.take k, c = ' ' ∨ c = '\t') →
    (l.drop k).dropWhile Char.isWhitespace = l.dropWhile Char.isWhitespace := by
  induction l with
  | nil => intro k _; simp
  | cons c rest ih =>
      intro k hk
      cases k with
      | zero => rfl
      | succ k2 =>
          have hc : c = ' ' ∨ c = '\t' := hk c (by rw [List.take_succ_cons]; exact List.mem_cons_self c _)
          have hcw : c.isWhitespace = true := by rcases hc with h | h <;> rw [h] <;> decide
          rw [List.drop_succ_cons, List.dropWhile_cons, if_pos hcw]
          exact ih k2 (fun x hx => hk x (by rw [List.take_succ_cons]; exact List.mem_cons_of_mem _ hx))

lemma trimChars_drop_of_ws (l : List Char) (k : Nat)
    (h : ∀ c ∈ l.take k, c = ' ' ∨ c = '\t') : trimChars (l.drop k) = trimChars l := by
  unfold trimChars
  rw [dropWhile_drop_of_ws l k h]

lemma goSplitAux_length (l : List Char) : ∀ acc, (goSplitAux acc l).length = l.count '\n' + 1 := by
  induction l with
  | nil => intro acc; rfl
  | cons c rest ih =>
      intro acc
      by_cases hc : c = '\n'
      · simp only [goSplitAux, if_pos hc, List.length_cons, ih]
        rw [hc, List.count_cons_self]
      · simp only [goSplitAux, if_neg hc, ih]
        rw [List.count_cons_of_ne (by exact fun h => hc h.symm)]

lemma goSplitAux_no_nl (l : List Char) : ∀ acc, '\n' ∉ l →
    goSplitAux acc l = [acc.reverse ++ l] := by
  induction l with
  | nil => intro acc _; simp [goSplitAux]
  | cons c rest ih =>
      intro acc h
      have hc : ¬c = '\n' := fun hx => h (by rw [hx]; exact List.mem_cons_self _ _)
      simp only [goSplitAux, if_neg hc]
      rw [ih (c :: acc) (fun hx => h (List.mem_cons_of_mem _ hx))]
      simp

lemma splitLines_single (l : List Char) (h : '\n' ∉ l) : splitLines l = [l] := by
  unfold splitLines
  rw [goSplitAux_no_nl l [] h]
  rfl

lemma joinSpace_ends (ls : List (List Char)) (u : List Char) (c : Char)
    (hne : ls ≠ []) (h : ls.getLastD [] = u ++ [c]) :
    ∃ v, joinSpace ls = v ++ [c] := by
  induction ls with
  | nil => exact absurd rfl hne
  | cons x rest ih =>
      cases rest with
      | nil =>
          refine ⟨u, ?_⟩
          simpa [joinSpace] using h
      | cons y t =>
          have h2 : (y :: t).getLastD [] = u ++ [c] := by
            rw [List.getLastD_cons] at h
            rw [getLastD_ne_nil (y :: t) (by simp) [] x]
            exact h
          obtain ⟨v, hv⟩ := ih (by simp) h2
          refine ⟨x ++ ' ' :: v, ?_⟩
          show x ++ ' ' :: joinSpace (y :: t) = x ++ ' ' :: v ++ [c]
          rw [hv]
          simp

lemma startsWith2_shape {l : List Char} {a b : Char} (h : startsWith2 l a b = true) :
    ∃ rest, l = a :: b :: rest := by
  cases l with
  | nil => exact absurd h (by simp [startsWith2])
  | cons x t =>
      cases t with
      | nil => exact absurd h (by simp [startsWith2])
      | cons y rest =>
          simp only [startsWith2, Bool.and_eq_true, decide_eq_true_eq] at h
          exact ⟨rest, by rw [h.1, h.2]⟩

lemma quoteRewrite_last (l : List Char) (h : l ≠ []) :
    quoteRewriteChars l ≠ [] ∧
      ((quoteRewriteChars l).getLastD runeError = dquote ∨
        (quoteRewriteChars l).getLastD runeError = l.getLastD runeError) := by
  unfold quoteRewriteChars
  split
  · constructor
    · simp
    · left
      rw [show dquote :: ((l.drop 1).dropLast ++ [dquote]) =
        (dquote :: (l.drop 1).dropLast) ++ [dquote] from rfl, getLastD_concat]
  · exact ⟨h, Or.inr rfl⟩

/-- Wellformedness of a comment token as produced by the lexer: no NUL
character in the raw text, and either a line comment (which contains no
newline) or a block comment whose last line, after trimming, ends at the
comment terminator. -/
def wfRaw (raw : String) : Prop :=
  nulChar ∉ raw.data ∧
    ((startsWith2 raw.data '/' '/' = true ∧ '\n' ∉ raw.data) ∨
     (startsWith2 raw.data '/' '*' = true ∧
       ∃ u, trimChars ((splitLines raw.data).getLastD []) = u ++ ['/']))

/-- Wellformedness of a comment node. -/
def wfComment (c : CComment) : Prop := wfRaw c.raw

lemma cons_ends (c : Char) (l : List Char) (h : ∃ w, l = w ++ ['/']) :
    ∃ v, c :: l = v ++ ['/'] := by
  obtain ⟨w, hw⟩ := h
  exact ⟨c :: w, by simp [hw]⟩

lemma xformLine_last (pfx : List Char) (mi : Nat) (line u : List Char)
    (ht : trimChars line = u ++ ['/']) :
    ∃ w, xformLine pfx mi false line = w ++ ['/'] := by
  have hun : ∃ w1, trimRightChars (goUnindent line mi) = w1 ++ ['/'] := by
    obtain ⟨m, k, hu, hw⟩ := unindentGo_shape line 0 mi
    rw [goUnindent, hu]
    have htx : trimChars (line.drop k) = u ++ ['/'] := by
      rw [trimChars_drop_of_ws line k hw, ht]
    have hne : trimChars (line.drop k) ≠ [] := by rw [htx]; simp
    have hdec : trimRightChars (line.drop k) =
        (line.drop k).takeWhile Char.isWhitespace ++ (u ++ ['/']) := by
      rw [trimRight_decomp _ hne, htx]
    rw [trimRight_append_left _ _ (by rw [hdec]; simp), hdec]
    exact ⟨List.replicate m ' ' ++ ((line.drop k).takeWhile Char.isWhitespace ++ u), by simp⟩
  have hl1 : ∃ w1, (if trimChars line = [] ∨ trimChars line = ['*', '/'] ∨ pfx ≠ [] then
      trimChars line else trimRightChars (goUnindent line mi)) = w1 ++ ['/'] := by
    split
    · exact ⟨u, ht⟩
    · exact hun
  obtain ⟨w1, hw1⟩ := hl1
  unfold xformLine
  dsimp only
  rw [hw1]
  split_ifs <;>
    first
      | exact ⟨w1, rfl⟩
      | (repeat first | exact ⟨w1, rfl⟩ | apply cons_ends)

lemma writeCommentLines_failAt (ls : List (List Char)) : ∀ f : Fmt,
    (writeCommentLines f ls).failAt = f.failAt := by
  induction ls with
  | nil => intro f; rfl
  | cons l rest ih =>
      intro f
      cases rest with
      | nil =>
          simp only [writeCommentLines]
          rw [WriteString_failAt, Indent_failAt]
      | cons l2 r2 =>
          simp only [writeCommentLines]
          rw [ih, P_failAt]

lemma writeCommentGo_failAt (f : Fmt) (raw : String) :
    (writeCommentGo f raw).failAt = f.failAt := by
  unfold writeCommentGo
  split
  · dsimp only
    exact writeCommentLines_failAt _ f
  · rw [WriteString_failAt, Indent_failAt]

lemma writeCommentLines_mid (ls : List (List Char)) : ∀ f : Fmt, okSink f → ls ≠ [] →
    (∃ w c, c ≠ '\n' ∧ c ≠ nulChar ∧ ls.getLastD [] = w ++ [c]) →
    endsMid (writeCommentLines f ls) := by
  induction ls with
  | nil => intro f _ hne _; exact absurd rfl hne
  | cons l rest ih =>
      intro f hok _ hlast
      cases rest with
      | nil =>
          obtain ⟨w, c, hc1, hc2, hw⟩ := hlast
          have hl : l = w ++ [c] := by simpa using hw
          simp only [writeCommentLines]
          have hokI : okSink (Indent f none) := okSink_of_eq (Indent_failAt f none) hok
          have hne2 : String.mk l ≠ "" := by
            intro hx
            have hd : l = [] := congrArg String.data hx
            rw [hl] at hd
            simp at hd
          refine endsMid_write _ _ hokI hne2 ?_ ?_
          · show l.getLastD runeError ≠ '\n'
            rw [hl, getLastD_concat]
            exact hc1
          · show l.getLastD runeError ≠ nulChar
            rw [hl, getLastD_concat]
            exact hc2
      | cons l2 rest2 =>
          simp only [writeCommentLines]
          obtain ⟨w, c, hc1, hc2, hw⟩ := hlast
          rw [List.getLastD_cons] at hw
          have hw2 : (l2 :: rest2).getLastD [] = w ++ [c] := by
            rw [getLastD_ne_nil (l2 :: rest2) (by simp) [] l]
            exact hw
          exact ih (P f (String.mk l)) (okSink_of_eq (P_failAt f _) hok) (by simp)
            ⟨w, c, hc1, hc2, hw2⟩

lemma writeCommentGo_mid (f : Fmt) (raw : String) (hok : okSink f) (hwf : wfRaw raw) :
    endsMid (writeCommentGo f raw) := by
  obtain ⟨hnul, hdisj⟩ := hwf
  unfold writeCommentGo
  by_cases hb : startsWith2 raw.data '/' '*' = true ∧ 0 < newlineCountStr raw
  · rw [if_pos hb]
    have hcnt : 0 < raw.data.count '\n' := hb.2
    have hmemnl : '\n' ∈ raw.data := List.count_pos_iff_mem.mp hcnt
    have hlast : ∃ u, trimChars ((splitLines raw.data).getLastD []) = u ++ ['/'] := by
      rcases hdisj with ⟨_, hno⟩ | ⟨_, hu⟩
      · exact absurd hmemnl hno
      · exact hu
    obtain ⟨u, hu⟩ := hlast
    have hlen : (splitLines raw.data).length = raw.data.count '\n' + 1 :=
      goSplitAux_length raw.data []
    cases hsp : splitLines raw.data with
    | nil => rw [hsp] at hlen; simp at hlen
    | cons l0 rest =>
        have hrest : rest ≠ [] := by
          intro hx
          rw [hsp, hx] at hlen
          simp at hlen
          omega
        dsimp only
        simp only [List.tail_cons]
        rw [hsp] at hu
        rw [List.getLastD_cons, getLastD_ne_nil rest hrest l0 []] at hu
        obtain ⟨w, hwx⟩ := xformLine_last (commentPfx rest) (minIndentOf rest)
          (rest.getLastD []) u hu
        apply writeCommentLines_mid _ f hok (by simp)
        refine ⟨w, '/', by decide, by decide, ?_⟩
        rw [List.getLastD_cons]
        rw [getLastD_ne_nil (rest.map (xformLine (commentPfx rest) (minIndentOf rest) false))
          (by simpa using hrest) (xformLine (commentPfx rest) (minIndentOf rest) true l0) []]
        rw [getLastD_map (xformLine (commentPfx rest) (minIndentOf rest) false) rest hrest [] []]
        exact hwx
  · rw [if_neg hb]
    have hnl : '\n' ∉ raw.data := by
      rcases hdisj with ⟨_, h⟩ | ⟨hsw, _⟩
      · exact h
      · intro hmem
        exact hb ⟨hsw, List.count_pos_iff_mem.mpr hmem⟩
    have hslash : '/' ∈ raw.data := by
      rcases hdisj with ⟨hsw, _⟩ | ⟨hsw, _⟩ <;>
        · obtain ⟨r, hr⟩ := startsWith2_shape hsw
          rw [hr]
          exact List.mem_cons_self _ _
    have htne : trimChars raw.data ≠ [] :=
      List.ne_nil_of_mem (nonws_mem_trim hslash (by decide))
    have hgne : goTrim raw ≠ "" := by
      intro hx
      exact htne (congrArg String.data hx)
    have hmem : lastRune (goTrim raw) ∈ raw.data := by
      apply trim_subset
      show (trimChars raw.data).getLastD runeError ∈ trimChars raw.data
      rw [List.getLastD_eq_getLast?, List.getLast?_eq_getLast _ htne, Option.getD_some]
      exact List.getLast_mem htne
    refine endsMid_write _ _ (okSink_of_eq (Indent_failAt f none) hok) hgne ?_ ?_
    · exact fun hx => hnl (hx ▸ hmem)
    · exact fun hx => hnul (hx ▸ hmem)

lemma mk_ne_empty (l : List Char) (h : l ≠ []) : String.mk l ≠ "" :=
  fun hx => h (congrArg String.data hx)

lemma lastRune_line_comment (t : String) :
    ("/* " ++ t ++ " */" : String) ≠ "" ∧ lastRune ("/* " ++ t ++ " */") = '/' := by
  constructor
  · intro hx
    have hd := congrArg String.data hx
    rw [String.data_append, String.data_append,
      show (" */" : String).data = [' ', '*', '/'] from rfl] at hd
    simp at hd
  · rw [lastRune, String.data_append, String.data_append,
      show (" */" : String).data = [' ', '*', '/'] from rfl,
      show ("/* " : String).data ++ t.data ++ [' ', '*', '/'] =
        (("/* " : String).data ++ t.data ++ [' ', '*']) ++ ['/'] by simp]
    exact getLastD_concat _ _ _

lemma lastRune_block_inline (raw : String) (u : List Char)
    (hu : trimChars ((splitLines raw.data).getLastD []) = u ++ ['/']) :
    String.mk (joinSpace ((splitLines raw.data).map trimChars)) ≠ "" ∧
      lastRune (String.mk (joinSpace ((splitLines raw.data).map trimChars))) = '/' := by
  have hne : splitLines raw.data ≠ [] := by
    intro hx
    have hlen := goSplitAux_length raw.data []
    rw [show goSplitAux [] raw.data = splitLines raw.data from rfl, hx] at hlen
    simp at hlen
  have hmapne : (splitLines raw.data).map trimChars ≠ [] := by simpa using hne
  have hlast : ((splitLines raw.data).map trimChars).getLastD [] = u ++ ['/'] := by
    rw [getLastD_map trimChars _ hne [] []]
    exact hu
  obtain ⟨v, hv⟩ := joinSpace_ends _ u '/' hmapne hlast
  constructor
  · apply mk_ne_empty
    rw [hv]
    simp
  · rw [lastRune]
    show (joinSpace ((splitLines raw.data).map trimChars)).getLastD runeError = '/'
    rw [hv, getLastD_concat]

lemma goInline_failAt (cs : List CComment) : ∀ (f : Fmt) (i : Nat),
    (goInlineComments f i cs).failAt = f.failAt := by
  induction cs with
  | nil => intro f i; rfl
  | cons c rest ih =>
      intro f i
      simp only [goInlineComments]
      split
      · exact ih f (i + 1)
      · rw [ih, WriteString_failAt]
        split <;> rfl

lemma goInline_mid (cs : List CComment) : ∀ (f : Fmt) (i : Nat), okSink f → endsMid f →
    (∀ c ∈ cs, wfComment c) → endsMid (goInlineComments f i cs) := by
  induction cs with
  | nil => intro f i _ hm _; exact hm
  | cons c rest ih =>
      intro f i hok hm hwf
      obtain ⟨hnul, hdisj⟩ := hwf c (List.mem_cons_self _ _)
      simp only [goInlineComments]
      split
      · exact ih f (i + 1) hok hm (fun x hx => hwf x (List.mem_cons_of_mem _ hx))
      · have hf1 : (if 0 < i ∨ c.lws ≠ "" ∨ f.lastWritten = ';' ∨ f.lastWritten = '\x7d'
            then Space f else f).failAt = f.failAt := by
          split <;> rfl
        set f1 := if 0 < i ∨ c.lws ≠ "" ∨ f.lastWritten = ';' ∨ f.lastWritten = '\x7d'
          then Space f else f
        have hok1 := okSink_of_eq hf1 hok
        refine ih _ (i + 1) (okSink_of_eq (WriteString_failAt _ _) hok1) ?_
          (fun x hx => hwf x (List.mem_cons_of_mem _ hx))
        by_cases hsw : startsWith2 c.raw.data '/' '/' = true
        · rw [if_pos hsw]
          obtain ⟨hne, hlr⟩ := lastRune_line_comment (String.mk (trimChars (c.raw.data.drop 2)))
          exact endsMid_write _ _ hok1 hne (by rw [hlr]; decide) (by rw [hlr]; decide)
        · rw [if_neg hsw]
          have hright : ∃ u, trimChars ((splitLines c.raw.data).getLastD []) = u ++ ['/'] := by
            rcases hdisj with ⟨h1, _⟩ | ⟨_, h⟩
            · exact absurd h1 hsw
            · exact h
          obtain ⟨u, hu⟩ := hright
          obtain ⟨hne, hlr⟩ := lastRune_block_inline c.raw u hu
          exact endsMid_write _ _ hok1 hne (by rw [hlr]; decide) (by rw [hlr]; decide)

lemma goMultiline_failAt (cs : List CComment) : ∀ (f : Fmt) (b : Bool),
    (goMultilineComments f b cs).failAt = f.failAt := by
  induction cs with
  | nil => intro f b; rfl
  | cons c rest ih =>
      intro f b
      simp only [goMultilineComments]
      rw [ih, WriteString_failAt, writeCommentGo_failAt]
      split
      · exact P_failAt f ""
      · rfl

lemma goMultiline_clean (cs : List CComment) : ∀ (f : Fmt) (b : Bool), okSink f → cs ≠ [] →
    (∀ c ∈ cs, wfComment c) → endsClean (goMultilineComments f b cs) := by
  induction cs with
  | nil => intro f b _ hne _; exact absurd rfl hne
  | cons c rest ih =>
      intro f b hok _ hwf
      simp only [goMultilineComments]
      have hf1 : (if b = false ∧ 1 < newlineCountStr c.lws then P f "" else f).failAt
          = f.failAt := by
        split
        · exact P_failAt f ""
        · rfl
      set f1 := if b = false ∧ 1 < newlineCountStr c.lws then P f "" else f
      have hok1 := okSink_of_eq hf1 hok
      have hmid := writeCommentGo_mid f1 c.raw hok1 (hwf c (List.mem_cons_self _ _))
      have hok2 : okSink (writeCommentGo f1 c.raw) :=
        okSink_of_eq (writeCommentGo_failAt _ _) hok1
      have hclean := endsClean_nl _ hok2 hmid
      cases rest with
      | nil => simpa only [goMultilineComments] using hclean
      | cons c2 r2 =>
          exact ih _ false (okSink_of_eq (WriteString_failAt _ _) hok2) (by simp)
            (fun x hx => hwf x (List.mem_cons_of_mem _ hx))

lemma goTrailingEnd_failAt (cs : List CComment) : ∀ (f : Fmt) (i : Nat),
    (goTrailingEnd f i cs).failAt = f.failAt := by
  induction cs with
  | nil => intro f i; exact P_failAt f ""
  | cons c rest ih =>
      intro f i
      simp only [goTrailingEnd]
      rw [ih, writeCommentGo_failAt]
      split
      · split
        · exact P_failAt f ""
        · split <;> rfl
      · rfl

lemma goTrailingEnd_clean (cs : List CComment) : ∀ (f : Fmt) (i : Nat), okSink f →
    (cs = [] → endsMid f) → (∀ c ∈ cs, wfComment c) →
    endsClean (goTrailingEnd f i cs) := by
  induction cs with
  | nil => intro f i hok hm _; exact P_blank_clean f hok (hm rfl)
  | cons c rest ih =>
      intro f i hok _ hwf
      simp only [goTrailingEnd]
      have hf1 : (if c.lws ≠ "" then if c.lws.data.contains '\n' then P f ""
          else if 0 < i then Space f else f else f).failAt = f.failAt := by
        split
        · split
          · exact P_failAt f ""
          · split <;> rfl
        · rfl
      set f1 := if c.lws ≠ "" then if c.lws.data.contains '\n' then P f ""
        else if 0 < i then Space f else f else f
      have hok1 := okSink_of_eq hf1 hok
      have hmid := writeCommentGo_mid f1 c.raw hok1 (hwf c (List.mem_cons_self _ _))
      exact ih _ (i + 1) (okSink_of_eq (writeCommentGo_failAt _ _) hok1) (fun _ => hmid)
        (fun x hx => hwf x (List.mem_cons_of_mem _ hx))

/-- Wellformedness of a terminal token: nonempty text whose last rune is
neither a newline nor NUL, and wellformed attached comments. -/
def wfTok (t : CTok) : Prop :=
  t.text ≠ "" ∧ lastRune t.text ≠ '\n' ∧ lastRune t.text ≠ nulChar ∧
    (∀ c ∈ t.lead, wfComment c) ∧ (∀ c ∈ t.trail, wfComment c)

/-- Wellformedness of an optional token. -/
def wfOptTok : Option CTok → Prop
  | some t => wfTok t
  | none => True

/-- Wellformedness of a syntax declaration. -/
def wfSyntax (d : SyntaxDecl) : Prop :=
  wfTok d.keyword ∧ wfTok d.equals ∧ wfTok d.value ∧ wfTok d.semicolon

/-- Wellformedness of a package declaration. -/
def wfPackage (d : PackageDecl) : Prop :=
  wfTok d.keyword ∧ wfOptTok d.name ∧ wfTok d.semicolon

/-- Wellformedness of an import declaration. -/
def wfImport (im : ImportDecl) : Prop :=
  wfTok im.keyword ∧ wfOptTok im.pub ∧ wfOptTok im.weak ∧ wfTok im.name ∧ wfTok im.semicolon

/-- Wellformedness of a header-fragment file. -/
def wfFile (file : FileNode) : Prop :=
  (∀ d, file.syntaxDecl = some d → wfSyntax d) ∧
    (∀ d, file.packageDecl = some d → wfPackage d) ∧
    (∀ im ∈ file.importDecls, wfImport im) ∧
    (∀ c ∈ file.eofComments, wfComment c)

lemma writeMultilineMC_failAt (f : Fmt) (b : Bool) (cs : List CComment) :
    (writeMultilineCommentsMaybeCompactGo f b cs).failAt = f.failAt :=
  goMultiline_failAt cs f _

lemma writeNodeTok_failAt (f : Fmt) (t : CTok) : (writeNodeTok f t).failAt = f.failAt := by
  unfold writeNodeTok
  cases t.kind <;> dsimp only
  · rw [WriteString_failAt]
    split_ifs <;> rfl
  · exact WriteString_failAt _ _
  · exact WriteString_failAt _ _

lemma writeNodeTok_mid (f : Fmt) (t : CTok) (hok : okSink f) (h1 : t.text ≠ "")
    (h2 : lastRune t.text ≠ '\n') (h3 : lastRune t.text ≠ nulChar) :
    endsMid (writeNodeTok f t) := by
  unfold writeNodeTok
  cases t.kind <;> dsimp only
  · refine endsMid_write _ _ ?_ h1 h2 h3
    intro n
    split_ifs <;> exact hok n
  · exact endsMid_write _ _ hok h1 h2 h3
  · have hd : t.text.data ≠ [] := fun hx => h1 (String.ext hx)
    obtain ⟨hne, hlast⟩ := quoteRewrite_last t.text.data hd
    refine endsMid_write _ _ hok (mk_ne_empty _ hne) ?_ ?_
    · show (quoteRewriteChars t.text.data).getLastD runeError ≠ '\n'
      rcases hlast with h | h
      · rw [h]; decide
      · rw [h]; exact h2
    · show (quoteRewriteChars t.text.data).getLastD runeError ≠ nulChar
      rcases hlast with h | h
      · rw [h]; decide
      · rw [h]; exact h3

lemma startTok_tail (f1 : Fmt) (t : CTok) (hok1 : okSink f1) (h1 : t.text ≠ "")
    (h2 : lastRune t.text ≠ '\n') (h3 : lastRune t.text ≠ nulChar)
    (htrail : ∀ c ∈ t.trail, wfComment c) (p : Option PrevNode) :
    endsMid { (if t.trail ≠ [] then
        writeInlineCommentsGo (writeNodeTok (Indent f1 (some (tokPrev t))) t) t.trail
      else writeNodeTok (Indent f1 (some (tokPrev t))) t) with previousNode := p } := by
  have hok2 : okSink (Indent f1 (some (tokPrev t))) := okSink_of_eq (Indent_failAt _ _) hok1
  have hmid := writeNodeTok_mid _ t hok2 h1 h2 h3
  have hok3 : okSink (writeNodeTok (Indent f1 (some (tokPrev t))) t) :=
    okSink_of_eq (writeNodeTok_failAt _ _) hok2
  split
  · exact goInline_mid t.trail _ 0 hok3 hmid htrail
  · exact hmid

lemma writeStartTok_failAt (f : Fmt) (b : Bool) (t : CTok) :
    (writeStartTok f b t).failAt = f.failAt := by
  unfold writeStartTok
  dsimp only
  split_ifs <;>
    simp only [writeInlineCommentsGo, goInline_failAt, writeNodeTok_failAt, Indent_failAt,
      P_failAt, writeMultilineMC_failAt]

lemma writeStartTok_mid (f : Fmt) (b : Bool) (t : CTok) (hok : okSink f) (hwf : wfTok t) :
    endsMid (writeStartTok f b t) := by
  obtain ⟨h1, h2, h3, hlead, htrail⟩ := hwf
  unfold writeStartTok
  dsimp only
  apply startTok_tail _ t _ h1 h2 h3 htrail
  split_ifs <;>
    first
      | exact hok
      | exact okSink_of_eq (P_failAt _ _) (okSink_of_eq (writeMultilineMC_failAt _ _ _) hok)
      | exact okSink_of_eq (writeMultilineMC_failAt _ _ _) hok
      | exact okSink_of_eq (P_failAt _ _) hok

lemma inlineTok_tail (f1 : Fmt) (t : CTok) (hok1 : okSink f1) (h1 : t.text ≠ "")
    (h2 : lastRune t.text ≠ '\n') (h3 : lastRune t.text ≠ nulChar)
    (htrail : ∀ c ∈ t.trail, wfComment c) (p : Option PrevNode) (b : Bool) :
    endsMid { writeInlineCommentsGo (writeNodeTok f1 t) t.trail with
      previousNode := p, inline := b } :=
  goInline_mid t.trail _ 0 (okSink_of_eq (writeNodeTok_failAt _ _) hok1)
    (writeNodeTok_mid f1 t hok1 h1 h2 h3) htrail

lemma writeInlineTok_failAt (f : Fmt) (t : CTok) :
    (writeInlineTok f t).failAt = f.failAt := by
  unfold writeInlineTok
  dsimp only
  split_ifs <;>
    simp only [writeInlineCommentsGo, goInline_failAt, writeNodeTok_failAt, Space]

lemma writeInlineTok_mid (f : Fmt) (t : CTok) (hok : okSink f) (hwf : wfTok t) :
    endsMid (writeInlineTok f t) := by
  obtain ⟨h1, h2, h3, hlead, htrail⟩ := hwf
  unfold writeInlineTok
  dsimp only
  apply inlineTok_tail _ t _ h1 h2 h3 htrail
  split_ifs <;>
    first
      | exact hok
      | exact okSink_of_eq (goInline_failAt _ _ _) hok

lemma lineEndTok_tail (f1 : Fmt) (t : CTok) (hok1 : okSink f1) (h1 : t.text ≠ "")
    (h2 : lastRune t.text ≠ '\n') (h3 : lastRune t.text ≠ nulChar)
    (htrail : ∀ c ∈ t.trail, wfComment c) (p : Option PrevNode) :
    endsClean { writeTrailingEndCommentsGo (Space (writeNodeTok f1 t)) t.trail with
      previousNode := p } := by
  have hmid := writeNodeTok_mid f1 t hok1 h1 h2 h3
  have hok2 : okSink (writeNodeTok f1 t) := okSink_of_eq (writeNodeTok_failAt _ _) hok1
  exact goTrailingEnd_clean t.trail _ 0 hok2 (fun _ => hmid) htrail

lemma writeLineEndTok_failAt (f : Fmt) (t : CTok) :
    (writeLineEndTok f t).failAt = f.failAt := by
  unfold writeLineEndTok
  dsimp only
  split_ifs <;>
    simp only [writeTrailingEndCommentsGo, goTrailingEnd_failAt, Space, writeNodeTok_failAt,
      writeInlineCommentsGo, goInline_failAt]

lemma writeLineEndTok_clean (f : Fmt) (t : CTok) (hok : okSink f) (hwf : wfTok t) :
    endsClean (writeLineEndTok f t) := by
  obtain ⟨h1, h2, h3, hlead, htrail⟩ := hwf
  unfold writeLineEndTok
  dsimp only
  apply lineEndTok_tail _ t _ h1 h2 h3 htrail
  split_ifs <;>
    first
      | exact hok
      | exact okSink_of_eq (goInline_failAt _ _ _) hok

lemma writeSyntaxGo_failAt (f : Fmt) (d : SyntaxDecl) :
    (writeSyntaxGo f d).failAt = f.failAt := by
  simp only [writeSyntaxGo, writeLineEndTok_failAt, writeInlineTok_failAt, Space,
    writeStartTok_failAt]

lemma writeSyntaxGo_clean (f : Fmt) (d : SyntaxDecl) (hok : okSink f) (hwf : wfSyntax d) :
    endsClean (writeSyntaxGo f d) := by
  unfold writeSyntaxGo
  apply writeLineEndTok_clean _ _ _ hwf.2.2.2
  exact okSink_of_eq (writeInlineTok_failAt _ _) (okSink_of_eq (writeInlineTok_failAt _ _)
    (okSink_of_eq (writeStartTok_failAt _ _ _) hok))

lemma writePackageGo_failAt (f : Fmt) (d : PackageDecl) :
    (writePackageGo f d).failAt = f.failAt := by
  unfold writePackageGo
  dsimp only
  cases hn : d.name <;> dsimp only <;>
    simp only [writeLineEndTok_failAt, writeInlineTok_failAt, Space, writeStartTok_failAt]

lemma writePackageGo_clean (f : Fmt) (d : PackageDecl) (hok : okSink f) (hwf : wfPackage d) :
    endsClean (writePackageGo f d) := by
  unfold writePackageGo
  dsimp only
  cases hn : d.name <;> dsimp only
  · apply writeLineEndTok_clean _ _ _ hwf.2.2
    exact okSink_of_eq (writeStartTok_failAt _ _ _) hok
  · apply writeLineEndTok_clean _ _ _ hwf.2.2
    exact okSink_of_eq (writeInlineTok_failAt _ _)
      (okSink_of_eq (writeStartTok_failAt _ _ _) hok)

lemma writeImportGo_failAt (f : Fmt) (im : ImportDecl) (b : Bool) :
    (writeImportGo f im b).failAt = f.failAt := by
  unfold writeImportGo
  dsimp only
  cases hp : im.pub <;> dsimp only
  · cases hw : im.weak <;> dsimp only <;>
      simp only [writeLineEndTok_failAt, writeInlineTok_failAt, Space, writeStartTok_failAt]
  · simp only [writeLineEndTok_failAt, writeInlineTok_failAt, Space, writeStartTok_failAt]

lemma writeImportGo_clean (f : Fmt) (im : ImportDecl) (b : Bool) (hok : okSink f)
    (hwf : wfImport im) : endsClean (writeImportGo f im b) := by
  have hok1 : okSink (Space (writeStartTok f b im.keyword)) :=
    okSink_of_eq (writeStartTok_failAt _ _ _) hok
  unfold writeImportGo
  dsimp only
  cases hp : im.pub <;> dsimp only
  · cases hw : im.weak <;> dsimp only
    · apply writeLineEndTok_clean _ _ _ hwf.2.2.2.2
      exact okSink_of_eq (writeInlineTok_failAt _ _) hok1
    · apply writeLineEndTok_clean _ _ _ hwf.2.2.2.2
      exact okSink_of_eq (writeInlineTok_failAt _ _)
        (okSink_of_eq (writeInlineTok_failAt _ _) hok1)
  · apply writeLineEndTok_clean _ _ _ hwf.2.2.2.2
    exact okSink_of_eq (writeInlineTok_failAt _ _)
      (okSink_of_eq (writeInlineTok_failAt _ _) hok1)

lemma importLoop_failAt (ims : List ImportDecl) : ∀ (f : Fmt) (prev : Option ImportDecl)
    (b : Bool), (importLoop f ims prev b).failAt = f.failAt := by
  induction ims with
  | nil => intro f prev b; rfl
  | cons im rest ih =>
      intro f prev b
      simp only [importLoop]
      split_ifs <;> rw [ih] <;> simp only [writeImportGo_failAt, P_failAt]

lemma importLoop_clean (ims : List ImportDecl) : ∀ (f : Fmt) (prev : Option ImportDecl),
    okSink f → (∀ im ∈ ims, wfImport im) → endsClean f →
    endsClean (importLoop f ims prev false) := by
  induction ims with
  | nil => intro f prev _ _ hc; exact hc
  | cons im rest ih =>
      intro f prev hok hwf hc
      have htail : ∀ x ∈ rest, wfImport x := fun x hx => hwf x (List.mem_cons_of_mem _ hx)
      simp only [importLoop]
      by_cases hskip : prevSameName prev im = true ∧ importHasCommentHdr im = false
      · rw [if_pos ⟨rfl, hskip.1, hskip.2⟩, if_neg (fun h => by simp at h)]
        exact ih f (some im) hok htail hc
      · rw [if_neg (fun h => hskip ⟨h.2.1, h.2.2⟩), if_neg (fun h => by simp at h)]
        exact ih _ (some im) (okSink_of_eq (writeImportGo_failAt _ _ _) hok) htail
          (writeImportGo_clean f im _ hok (hwf im (List.mem_cons_self _ _)))

lemma importLoop_entry_clean (ims : List ImportDecl) (f : Fmt) (hok : okSink f)
    (hne : ims ≠ []) (hwf : ∀ im ∈ ims, wfImport im) :
    endsClean (importLoop f ims none true) := by
  cases ims with
  | nil => exact absurd rfl hne
  | cons im rest =>
      have htail : ∀ x ∈ rest, wfImport x := fun x hx => hwf x (List.mem_cons_of_mem _ hx)
      have hhead : wfImport im := hwf im (List.mem_cons_self _ _)
      simp only [importLoop]
      rw [if_neg (fun h => absurd h.1 (by decide))]
      split_ifs with hblank
      · exact importLoop_clean rest _ (some im)
          (okSink_of_eq (writeImportGo_failAt _ _ _) (okSink_of_eq (P_failAt _ _) hok)) htail
          (writeImportGo_clean _ im _ (okSink_of_eq (P_failAt _ _) hok) hhead)
      · exact importLoop_clean rest _ (some im)
          (okSink_of_eq (writeImportGo_failAt _ _ _) hok) htail
          (writeImportGo_clean _ im _ hok hhead)

lemma writeFileHeaderGo_failAt (f : Fmt) (file : FileNode) :
    (writeFileHeaderGo f file).failAt = f.failAt := by
  unfold writeFileHeaderGo
  split
  · rfl
  · dsimp only
    rw [importLoop_failAt]
    cases hp : file.packageDecl with
    | none =>
        dsimp only
        cases hsy : file.syntaxDecl with
        | none => rfl
        | some d => rw [writeSyntaxGo_failAt]
    | some d =>
        dsimp only
        rw [writePackageGo_failAt]
        cases hsy : file.syntaxDecl with
        | none => rfl
        | some d2 => rw [writeSyntaxGo_failAt]

lemma writeFileHeaderGo_cases (f : Fmt) (file : FileNode) (hok : okSink f)
    (hwf : wfFile file) :
    (writeFileHeaderGo f file = f ∧ file.syntaxDecl = none ∧ file.packageDecl = none ∧
        file.importDecls = []) ∨
      endsClean (writeFileHeaderGo f file) := by
  obtain ⟨hsy, hpk, him, _⟩ := hwf
  have hok2 : okSink (match file.packageDecl with
      | some d => writePackageGo (match file.syntaxDecl with
          | some d2 => writeSyntaxGo f d2
          | none => f) d
      | none => match file.syntaxDecl with
          | some d2 => writeSyntaxGo f d2
          | none => f) := by
    cases hp : file.packageDecl with
    | none =>
        dsimp only
        cases hsy2 : file.syntaxDecl with
        | none => exact hok
        | some d => exact okSink_of_eq (writeSyntaxGo_failAt _ _) hok
    | some d =>
        dsimp only
        cases hsy2 : file.syntaxDecl with
        | none => exact okSink_of_eq (writePackageGo_failAt _ _) hok
        | some d2 =>
            exact okSink_of_eq (writePackageGo_failAt _ _)
              (okSink_of_eq (writeSyntaxGo_failAt _ _) hok)
  unfold writeFileHeaderGo
  split_ifs with hempty
  · exact Or.inl ⟨rfl, hempty⟩
  · right
    dsimp only
    cases hims : file.importDecls with
    | cons im0 rest =>
        have hsorted : ∀ im ∈ (im0 :: rest).insertionSort
            (fun a b => importLessHdr a b = true), wfImport im := by
          intro im hm
          exact him im (by
            rw [hims]
            exact (List.perm_insertionSort _ _).mem_iff.mp hm)
        apply importLoop_entry_clean _ _ hok2 _ hsorted
        intro hx
        have hlen := (List.perm_insertionSort (fun a b => importLessHdr a b = true)
          (im0 :: rest)).length_eq
        rw [hx] at hlen
        simp at hlen
    | nil =>
        simp only [List.insertionSort, importLoop]
        cases hp : file.packageDecl with
        | some d =>
            dsimp only
            apply writePackageGo_clean _ _ _ (hpk d hp)
            cases hsy2 : file.syntaxDecl with
            | none => exact hok
            | some d2 => exact okSink_of_eq (writeSyntaxGo_failAt _ _) hok
        | none =>
            dsimp only
            cases hsy2 : file.syntaxDecl with
            | some d =>
                dsimp only
                exact writeSyntaxGo_clean _ _ hok (hsy d hsy2)
            | none => exact absurd ⟨hsy2, hp, hims⟩ hempty

/-- C6 witness file: the head comment concluded by the writer. -/
def c6file : FileNode :=
  { syntaxDecl := none, packageDecl := none, importDecls := [],
    eofComments := [{ raw := "// end", lws := "", virtual := false }] }

/-- C6: over the header fragment (syntax, package, imports and the comments
attached to EOF; `writeFileTypes` and `writeFileOptions` write nothing for
it), with a sink that never fails and lexer-wellformed tokens and comments,
the output of `Run` is either empty or ends with exactly one newline. -/
theorem c6_trailing_newline (sched : Nat → Bool) (file : FileNode)
    (hs : ∀ n, sched n = false) (hwf : wfFile file) :
    (RunGo sched file).1.output = [] ∨
      ∃ t c, c ≠ '\n' ∧ (RunGo sched file).1.output = t ++ [c, '\n'] := by
  have hok0 : okSink (NewFormatter sched) := hs
  have hcases := writeFileHeaderGo_cases (NewFormatter sched) file hok0 hwf
  have hok1 : okSink (writeFileHeaderGo (NewFormatter sched) file) :=
    okSink_of_eq (writeFileHeaderGo_failAt _ _) hok0
  unfold RunGo writeFileGo
  dsimp only
  have heof := hwf.2.2.2
  set f1 := writeFileHeaderGo (NewFormatter sched) file with hf1
  by_cases heofne : file.eofComments = []
  · rw [heofne]
    simp only [goMultilineComments]
    rcases hcases with ⟨hid, _⟩ | hclean
    · rw [hid]
      rw [if_neg (by intro h; exact h.1 rfl)]
      exact Or.inl rfl
    · obtain ⟨hlw, t, c, hc, hout⟩ := hclean
      rw [if_neg (by intro h; exact h.2 hlw)]
      exact Or.inr ⟨t, c, hc, hout⟩
  · have hclean2 : endsClean (goMultilineComments f1 (isOpenBracePrev f1.previousNode)
        file.eofComments) :=
      goMultiline_clean file.eofComments f1 _ hok1 heofne heof
    obtain ⟨hlw, t, c, hc, hout⟩ := hclean2
    rw [if_neg (by intro h; exact h.2 hlw)]
    exact Or.inr ⟨t, c, hc, hout⟩

/-- C6 witness: the theorem applied at a concrete schedule and file. -/
theorem c6_trailing_newline_witness :
    (RunGo (fun _ => false) c6file).1.output = [] ∨
      ∃ t c, c ≠ '\n' ∧ (RunGo (fun _ => false) c6file).1.output = t ++ [c, '\n'] := by
  have hwf : wfFile c6file := by
    unfold wfFile
    refine ⟨?_, ?_, ?_, ?_⟩
    · intro d h
      simp [c6file] at h
    · intro d h
      simp [c6file] at h
    · intro im h
      simp [c6file] at h
    intro c h
    have hc : c = { raw := "// end", lws := "", virtual := false } := by
      simpa [c6file] using h
    subst hc
    exact ⟨by decide, Or.inl ⟨by decide, by decide⟩⟩
  exact c6_trailing_newline (fun _ => false) c6file (fun _ => rfl) hwf

end ProtoFmt